import Mathlib

/-!
Verification of the BitVision quantization-aware Vision Transformer core
(src/Bit/bitLinear.py, src/Bit/embeddings.py, src/Bit/encoder.py,
src/Bit/visionTransformer.py, src/train.py).

Modelling conventions:
* Scalars are modelled as exact rationals; torch tensors are a flat data
  list together with a shape list, in row-major (C-contiguous) layout as
  in PyTorch.
* External torch library primitives whose internals are not part of this
  repository (the reciprocal square root inside LayerNorm, GELU, the
  initialized multi-head-attention module, realized dropout) are taken as
  parameters; everything the repository itself computes is translated
  directly from the source.
* Value-level (evaluation-mode) semantics is embedded: Tensor.detach is
  the identity on values, dropout is supplied by the environment and is
  the identity in evaluation mode.
-/

/-- Fuel-indexed worker for splitting a flat list into consecutive chunks
of length k (row-major rows of a tensor). Structural in the fuel so that
the kernel can evaluate it. -/
def chunkGo {α : Type} (k : ℕ) : ℕ → List α → List (List α)
  | 0, _ => []
  | _ + 1, [] => []
  | fuel + 1, a :: l => ((a :: l).take k) :: chunkGo k fuel ((a :: l).drop k)

/-- Splits a flat list into consecutive chunks of length k; the rows of a
row-major tensor whose last dimension is k. -/
def chunkList {α : Type} (k : ℕ) (l : List α) : List (List α) :=
  if k = 0 then [] else chunkGo k l.length l

/-- Floor of a rational as an integer, computed with integer division so
that the kernel can evaluate it (the denominator of a rational is
positive, and integer division on ℤ rounds toward negative infinity for a
positive divisor). -/
def ratFloor (q : ℚ) : ℤ := q.num / (q.den : ℤ)

/-- Round-half-to-even on rationals: the semantics of torch.round, which
rounds each element to the nearest integer, breaking ties toward the even
integer. -/
def roundEven (q : ℚ) : ℤ :=
  let n := ratFloor q
  let frac := q - (n : ℚ)
  if frac < 1/2 then n
  else if 1/2 < frac then n + 1
  else if n % 2 = 0 then n else n + 1

/-- Element sign as computed by torch.Tensor.sign: -1, 0 or +1. -/
def signQ (q : ℚ) : ℚ := if q < 0 then -1 else if q = 0 then 0 else 1

/-- Two-sided clamp, torch.Tensor.clamp(lo, hi). -/
def clampQ (lo hi x : ℚ) : ℚ := max lo (min x hi)

/-- Tensor: a multi-dimensional array of exact rationals in row-major
layout, the universal currency between components (spec section 3). -/
structure Tensor where
  shape : List ℕ
  data : List ℚ
deriving DecidableEq

/-- Size of the last dimension of a tensor (1 for a rank-0 tensor). -/
def Tensor.lastDim (t : Tensor) : ℕ := t.shape.getLastD 1

/-- Well-formedness: the flat data holds exactly one rational per index
tuple of the shape. -/
def Tensor.wf (t : Tensor) : Prop := t.data.length = t.shape.prod

/-- Last-dimension slices (rows) of a tensor, in row-major order. -/
def Tensor.rows (t : Tensor) : List (List ℚ) := chunkList t.lastDim t.data

/-- Elementwise map over a tensor. -/
def tMap (f : ℚ → ℚ) (t : Tensor) : Tensor := ⟨t.shape, t.data.map f⟩

/-- Elementwise addition of same-shaped tensors (torch +). -/
def tAdd (a b : Tensor) : Tensor := ⟨a.shape, List.zipWith (· + ·) a.data b.data⟩

/-- Elementwise subtraction of same-shaped tensors (torch -). -/
def tSub (a b : Tensor) : Tensor := ⟨a.shape, List.zipWith (· - ·) a.data b.data⟩

/-- Value-level semantics of Tensor.detach: the same values, removed from
the autograd graph. Only forward values are modelled here, so this is the
identity. -/
def tDetach (t : Tensor) : Tensor := t

/-- Machine epsilon of 32-bit floats, the value of
torch.finfo(torch.float32).eps used by activation_quant (the gap between
1.0 and the next representable float, 2 to the power -23). -/
def finfo_eps : ℚ := 1 / 2 ^ 23

/-- RoundSTE.forward (src/Bit/bitLinear.py line 16): elementwise
torch.round, i.e. round-half-to-even. -/
def RoundSTE.forward (x : Tensor) : Tensor := tMap (fun a => ((roundEven a : ℤ) : ℚ)) x

/-- RoundSTE.backward (src/Bit/bitLinear.py line 20): returns the incoming
gradient unchanged. -/
def RoundSTE.backward (grad_output : Tensor) : Tensor := grad_output

/-- SignSTE.forward (src/Bit/bitLinear.py line 25): elementwise
torch.Tensor.sign. -/
def SignSTE.forward (x : Tensor) : Tensor := tMap signQ x

/-- SignSTE.backward (src/Bit/bitLinear.py line 29): returns the incoming
gradient unchanged. -/
def SignSTE.backward (grad_output : Tensor) : Tensor := grad_output

/-- Maximum absolute value of a row. For a nonempty row this equals
x.abs().max(dim=-1).values of torch, since absolute values are
nonnegative. -/
def absMaxRow (r : List ℚ) : ℚ := (r.map (fun a => |a|)).foldr max 0

/-- Translation of the per-row body of activation_quant
(src/Bit/bitLinear.py lines 44-46): scale = 127 / clamp(max |row|, eps);
row quantized as round(row * scale).clamp(-128, 127) / scale. -/
def rowActQuant (r : List ℚ) : List ℚ :=
  let scale := 127 / max (absMaxRow r) finfo_eps
  r.map (fun a => clampQ (-128) 127 ((roundEven (a * scale) : ℤ) : ℚ) / scale)

/-- activation_quant (src/Bit/bitLinear.py lines 34-47): per-token (per
last-dimension row) 8-bit quantization using the STE round. -/
def activation_quant (x : Tensor) : Tensor :=
  ⟨x.shape, (x.rows.map rowActQuant).flatten⟩

/-- weight_quant (src/Bit/bitLinear.py lines 49-62): whole-tensor ternary
quantization; scale = 1 / clamp(mean |w|, 1e-5), then
round(w * scale).clamp(-1, 1) / scale. -/
def weight_quant (w : Tensor) : Tensor :=
  let scale := 1 / max ((w.data.map (fun a => |a|)).sum / (w.data.length : ℚ)) (1 / 100000)
  ⟨w.shape, w.data.map (fun a => clampQ (-1) 1 ((roundEven (a * scale) : ℤ) : ℚ) / scale)⟩

/-- Environment of external torch library primitives that are not part of
this repository: the reciprocal square root used inside nn.LayerNorm, the
elementwise nn.GELU nonlinearity, and the realized dropout map (identity
in evaluation mode). -/
structure TorchEnv where
  rsqrt : ℚ → ℚ
  gelu : ℚ → ℚ
  dropout : ℚ → Tensor → Tensor

/-- Evaluation-mode environment predicate: nn.Dropout is the identity when
the module is in eval mode. -/
def TorchEnv.evalMode (env : TorchEnv) : Prop := ∀ r t, env.dropout r t = t

/-- Parameters of an nn.LayerNorm module: normalized shape (a single
trailing dimension here), eps, whether elementwise affine parameters
exist, and the affine weight and bias. -/
structure LayerNormP where
  normalized_shape : ℕ
  eps : ℚ
  elementwise_affine : Bool
  weight : List ℚ
  bias : List ℚ
deriving DecidableEq

/-- Construction of nn.LayerNorm(n) resp. nn.LayerNorm(n,
elementwise_affine=False): default eps 1e-5; when affine, weight is
initialized to ones and bias to zeros. -/
def mkLayerNorm (n : ℕ) (affine : Bool) : LayerNormP :=
  ⟨n, 1 / 100000, affine, List.replicate n 1, List.replicate n 0⟩

/-- Row body of nn.LayerNorm over the last dimension: subtract the mean,
divide by the square root of the biased variance plus eps (the division
is the external rsqrt primitive), then apply the affine weight and bias
when present. -/
def lnRow (env : TorchEnv) (p : LayerNormP) (r : List ℚ) : List ℚ :=
  let n : ℚ := (r.length : ℚ)
  let mu := r.sum / n
  let varB := (r.map (fun a => (a - mu) ^ 2)).sum / n
  let inv := env.rsqrt (varB + p.eps)
  let base := r.map (fun a => (a - mu) * inv)
  if p.elementwise_affine then
    List.zipWith (· + ·) (List.zipWith (· * ·) base p.weight) p.bias
  else base

/-- Application of an nn.LayerNorm module to a tensor: the row body mapped
over last-dimension rows. -/
def applyLN (env : TorchEnv) (p : LayerNormP) (t : Tensor) : Tensor :=
  ⟨t.shape, (t.rows.map (lnRow env p)).flatten⟩

/-- Parameters of a BitLinear layer (src/Bit/bitLinear.py lines 67-79):
an nn.Linear weight matrix [out_features, in_features] with optional
bias, plus the parameter-free rms_norm created in the constructor. -/
structure BitLinear where
  in_features : ℕ
  out_features : ℕ
  weight : Tensor
  bias : Option (List ℚ)
  rms_norm : LayerNormP

/-- BitLinear.__init__: stores the (externally initialized) weight and
bias, and creates nn.LayerNorm(in_features, elementwise_affine=False) as
rms_norm. -/
def mkBitLinear (inF outF : ℕ) (w : Tensor) (b : Option (List ℚ)) : BitLinear :=
  ⟨inF, outF, w, b, mkLayerNorm inF false⟩

/-- Dot product of two equally long vectors. -/
def dotQ (a b : List ℚ) : ℚ := (List.zipWith (· * ·) a b).sum

/-- Output row of F.linear: one dot product with every weight row, plus
the bias when present. -/
def linearRow (wRows : List (List ℚ)) (b : Option (List ℚ)) (r : List ℚ) : List ℚ :=
  let outs := wRows.map (fun wr => dotQ r wr)
  match b with
  | some bv => List.zipWith (· + ·) outs bv
  | none => outs

/-- torch.nn.functional.linear: x @ w.T + b over the last dimension;
fails with a shape error unless the last dimension of x equals the last
dimension of w (the in_features width). -/
def fLinear (w : Tensor) (b : Option (List ℚ)) (x : Tensor) : Option Tensor :=
  if x.lastDim = w.lastDim then
    some ⟨x.shape.dropLast ++ [w.shape.headD 0], ((x.rows).map (linearRow w.rows b)).flatten⟩
  else none

/-- BitLinear.forward (src/Bit/bitLinear.py lines 81-99): normalize the
input with rms_norm, apply the detached-delta STE quantization to the
normalized input and to the weight, then F.linear with the unquantized
bias. -/
def BitLinear.forward (env : TorchEnv) (p : BitLinear) (x : Tensor) : Option Tensor :=
  let x_norm := applyLN env p.rms_norm x
  let x_quant := tAdd x_norm (tDetach (tSub (activation_quant x_norm) x_norm))
  let w_quant := tAdd p.weight (tDetach (tSub (weight_quant p.weight) p.weight))
  fLinear w_quant p.bias x_quant

/-- Modelled from the spec: the claim describes the activation epsilon as
"the smallest representable positive value for the tensor's numeric
type"; for 32-bit floats that is the smallest positive (subnormal) value,
2 to the power -149 (the smallest positive normal value, 2 to the power
-126, would serve equally for the comparison below). -/
def spec_smallest_pos : ℚ := 1 / 2 ^ 149

/-- Modelled from the spec: the per-row activation quantization exactly as
the claim words it, differing from the source only in using the smallest
representable positive value as the divisor clamp. -/
def rowActQuantSpec (r : List ℚ) : List ℚ :=
  let scale := 127 / max (absMaxRow r) spec_smallest_pos
  r.map (fun a => clampQ (-128) 127 ((roundEven (a * scale) : ℤ) : ℚ) / scale)

/-- Modelled from the spec: activation_quant with the claim's epsilon. -/
def activation_quant_specEps (x : Tensor) : Tensor :=
  ⟨x.shape, (x.rows.map rowActQuantSpec).flatten⟩

/-- Broadcast of a [1, 1, latent] parameter by Tensor.expand(b, m, -1):
the same vector repeated at every batch and sequence position. -/
def expandRows (b m : ℕ) (v : List ℚ) : Tensor :=
  ⟨[b, m, v.length], (List.replicate (b * m) v).flatten⟩

/-- Row-major flat index of element [bi, c, r, s] of a [B, C, H, W]
tensor. -/
def idx4 (C H W bi c r s : ℕ) : ℕ := ((bi * C + c) * H + r) * W + s

/-- One flattened patch produced by the einops pattern
b c (h h1) (w w1) -> b (h w) (h1 w1 c): element (h1, w1, c) of patch
(ii, jj) of image bi is input element [bi, c, ii*p+h1, jj*p+w1]. -/
def patchRow (x : Tensor) (C H W p bi ii jj : ℕ) : List ℚ :=
  let inner : ℕ → ℕ → List ℚ := fun h1 w1 =>
    (List.range C).map (fun c => x.data.getD (idx4 C H W bi c (ii * p + h1) (jj * p + w1)) 0)
  ((List.range p).map (fun h1 =>
    ((List.range p).map (fun w1 => inner h1 w1)).flatten)).flatten

/-- Flattened-patch rows produced by the einops rearrange on a [b, c, h,
w] input: batch-major, then patch-row-major, then patch-column. -/
def rearrangeRows (p : ℕ) (x : Tensor) (b c h w : ℕ) : List (List ℚ) :=
  ((List.range b).map (fun bi =>
    ((List.range (h / p)).map (fun ii =>
      (List.range (w / p)).map (fun jj => patchRow x c h w p bi ii jj))).flatten)).flatten

/-- einops.rearrange(x, 'b c (h h1) (w w1) -> b (h w) (h1 w1 c') with
h1 = w1 = patch size (src/Bit/embeddings.py line 59): succeeds exactly
when the input is 4-dimensional and the patch size is positive and
divides both spatial extents, else raises a shape error (modelled as
none). -/
def rearrangeBCHW (p : ℕ) (x : Tensor) : Option Tensor :=
  match x.shape with
  | [b, c, h, w] =>
    if 0 < p ∧ p ∣ h ∧ p ∣ w then
      some ⟨[b, (h / p) * (w / p), p * p * c], (rearrangeRows p x b c h w).flatten⟩
    else none
  | _ => none

/-- Parameters of the InputEmbedding module (src/Bit/embeddings.py).
class_token and pos_embedding are nn.Parameter(torch.randn(1, 1,
latent_size)); they are stored here as the latent-size vector of their
externally sampled initial values. -/
structure InputEmbedding where
  patch_size : ℕ
  n_channels : ℕ
  latent_size : ℕ
  input_size : ℕ
  bitlinearProjection : BitLinear
  class_token : List ℚ
  pos_embedding : List ℚ

/-- InputEmbedding.__init__ (src/Bit/embeddings.py lines 31-46):
input_size = patch_size * patch_size * n_channels, and the projection is
BitLinear(input_size, latent_size) with externally initialized weight and
bias. -/
def mkInputEmbedding (p c latent : ℕ) (w : Tensor) (b : Option (List ℚ))
    (cls pos : List ℚ) : InputEmbedding :=
  ⟨p, c, latent, p * p * c, mkBitLinear (p * p * c) latent w b, cls, pos⟩

/-- InputEmbedding.forward (src/Bit/embeddings.py lines 48-66): rearrange
into flattened patches, project with BitLinear, prepend the class token
expanded over the batch (torch.cat along the sequence dimension), then
add pos_embedding.expand(b, n+1, -1). -/
def InputEmbedding.forward (env : TorchEnv) (P : InputEmbedding) (x : Tensor) : Option Tensor :=
  match rearrangeBCHW P.patch_size x with
  | none => none
  | some patches =>
    match BitLinear.forward env P.bitlinearProjection patches with
    | none => none
    | some proj =>
      match proj.shape with
      | [b, n, d] =>
        let withTok : List (List ℚ) :=
          ((chunkList n proj.rows).map (fun blk => P.class_token :: blk)).flatten
        let cat : Tensor := ⟨[b, n + 1, d], withTok.flatten⟩
        some (tAdd cat (expandRows b (n + 1) P.pos_embedding))
      | _ => none

/-- Parameters of an nn.MultiheadAttention module. The module itself is
external torch library code; its initialized evaluation-mode application
(query, key, value) -> output is carried as the opaque function run. -/
structure MultiheadAttention where
  embed_dim : ℕ
  num_heads : ℕ
  dropout : ℚ
  run : Tensor → Tensor → Tensor → Tensor

/-- Parameters of the EncoderBlock module (src/Bit/encoder.py): one
shared nn.LayerNorm(latent_size), one nn.MultiheadAttention, and the
enc_MLP sequential holding BitLinear(latent, 4*latent) and
BitLinear(4*latent, latent) around GELU and dropout. -/
structure EncoderBlock where
  latent_size : ℕ
  num_heads : ℕ
  dropout : ℚ
  norm : LayerNormP
  multihead : MultiheadAttention
  mlp_lin1 : BitLinear
  mlp_lin2 : BitLinear

/-- EncoderBlock.__init__ (src/Bit/encoder.py lines 26-49): norm is
nn.LayerNorm(latent_size) with its default learnable affine parameters;
the multihead module and the two BitLinear weights come from external
initialization. -/
def mkEncoderBlock (latent nheads : ℕ) (dr : ℚ)
    (attnRun : Tensor → Tensor → Tensor → Tensor)
    (w1 : Tensor) (b1 : Option (List ℚ)) (w2 : Tensor) (b2 : Option (List ℚ)) : EncoderBlock :=
  ⟨latent, nheads, dr, mkLayerNorm latent true, ⟨latent, nheads, dr, attnRun⟩,
    mkBitLinear latent (latent * 4) w1 b1, mkBitLinear (latent * 4) latent w2 b2⟩

/-- The enc_MLP sequential (src/Bit/encoder.py lines 42-48): BitLinear,
GELU, Dropout, BitLinear, Dropout. -/
def encMLP (env : TorchEnv) (blk : EncoderBlock) (t : Tensor) : Option Tensor :=
  match BitLinear.forward env blk.mlp_lin1 t with
  | none => none
  | some a =>
    match BitLinear.forward env blk.mlp_lin2 (env.dropout blk.dropout (tMap env.gelu a)) with
    | none => none
    | some o => some (env.dropout blk.dropout o)

/-- EncoderBlock.forward (src/Bit/encoder.py lines 51-68): pre-norm
self-attention with residual, then the same norm module again before the
MLP, and a second residual. -/
def EncoderBlock.forward (env : TorchEnv) (blk : EncoderBlock) (input_tensor : Tensor) : Option Tensor :=
  let normalized_input := applyLN env blk.norm input_tensor
  let attention_output := blk.multihead.run normalized_input normalized_input normalized_input
  let residual_attention := tAdd input_tensor attention_output
  let normalized_residual := applyLN env blk.norm residual_attention
  match encMLP env blk normalized_residual with
  | none => none
  | some mlp_output => some (tAdd residual_attention mlp_output)

/-- Externally sampled initial parameter values consumed by the
VisionTransformer constructor: the embedding projection weights, class
token and positional bias, the per-block attention modules and MLP
weights (indexed by block position), and the mlp_head weights. -/
structure InitParams where
  embW : Tensor
  embB : Option (List ℚ)
  cls : List ℚ
  pos : List ℚ
  attnRun : ℕ → Tensor → Tensor → Tensor → Tensor
  w1 : ℕ → Tensor
  b1 : ℕ → Option (List ℚ)
  w2 : ℕ → Tensor
  b2 : ℕ → Option (List ℚ)
  headW1 : Tensor
  headB1 : Option (List ℚ)
  headW2 : Tensor
  headB2 : Option (List ℚ)

/-- Parameters of the VisionTransformer model
(src/Bit/visionTransformer.py). -/
structure VisionTransformer where
  num_encoders : ℕ
  latent_size : ℕ
  num_classes : ℕ
  dropout : ℚ
  input_embedding : InputEmbedding
  encoder_stack : List EncoderBlock
  head_norm : LayerNormP
  head_lin1 : BitLinear
  head_lin2 : BitLinear

/-- VisionTransformer.__init__ (src/Bit/visionTransformer.py lines
52-70). InputEmbedding is constructed passing only latent_size and
device, so patch_size and n_channels keep their defaults 16 and 3; each
EncoderBlock is constructed passing only latent_size and device, so
num_heads keeps its default 8 and its dropout its default 0.5 (the
model-level dropout argument is stored but not forwarded). The mlp_head
is LayerNorm(latent) -> BitLinear(latent, latent) -> GELU ->
BitLinear(latent, num_classes). -/
def mkVisionTransformer (numEnc latent numCls : ℕ) (dr : ℚ) (init : InitParams) : VisionTransformer :=
  ⟨numEnc, latent, numCls, dr,
    mkInputEmbedding 16 3 latent init.embW init.embB init.cls init.pos,
    (List.range numEnc).map (fun i =>
      mkEncoderBlock latent 8 (1 / 2) (init.attnRun i) (init.w1 i) (init.b1 i) (init.w2 i) (init.b2 i)),
    mkLayerNorm latent true,
    mkBitLinear latent latent init.headW1 init.headB1,
    mkBitLinear latent numCls init.headW2 init.headB2⟩

/-- Slicing t[:, 0] of a [b, n, d] tensor: the class-token embedding of
each batch element (src/Bit/visionTransformer.py line 86). -/
def selectCls (t : Tensor) : Option Tensor :=
  match t.shape with
  | [b, n, d] =>
    if 0 < n then some ⟨[b, d], ((chunkList (n * d) t.data).map (List.take d)).flatten⟩
    else none
  | _ => none

/-- Sequential application of the encoder stack
(src/Bit/visionTransformer.py lines 84-85). -/
def encoderFold (env : TorchEnv) : List EncoderBlock → Tensor → Option Tensor
  | [], t => some t
  | blk :: rest, t =>
    match EncoderBlock.forward env blk t with
    | none => none
    | some t2 => encoderFold env rest t2

/-- VisionTransformer.forward (src/Bit/visionTransformer.py lines
72-88): embedding, encoder stack, class-token extraction, mlp_head. -/
def VisionTransformer.forward (env : TorchEnv) (M : VisionTransformer) (input_tensor : Tensor) : Option Tensor :=
  match InputEmbedding.forward env M.input_embedding input_tensor with
  | none => none
  | some emb =>
    match encoderFold env M.encoder_stack emb with
    | none => none
    | some encOut =>
      match selectCls encOut with
      | none => none
      | some cls_token_embedding =>
        match BitLinear.forward env M.head_lin1 (applyLN env M.head_norm cls_token_embedding) with
        | none => none
        | some h1 => BitLinear.forward env M.head_lin2 (tMap env.gelu h1)

/-- Modelled from the spec: the recognized configuration keys of spec
section 6 (config/config.py and config/config.yaml are not among the
checked sources). train.py reads keys with config.get(key, default), so
each key is an optional value. -/
structure Config where
  patch_size : Option ℕ
  latent_size : Option ℕ
  num_encoders : Option ℕ
  num_heads : Option ℕ
  num_classes : Option ℕ
  dropout : Option ℚ

/-- Model construction performed by train.py lines 97-102:
VisionTransformer(num_encoders=config.get("num_encoders", 12),
latent_size=config.get("latent_size", 768), device=device,
num_classes=config.get("num_classes", 10)). The recognized keys
patch_size, num_heads and dropout are not forwarded to the model. -/
def buildModel (cfg : Config) (init : InitParams) : VisionTransformer :=
  mkVisionTransformer (cfg.num_encoders.getD 12) (cfg.latent_size.getD 768)
    (cfg.num_classes.getD 10) (1 / 2) init

/-- All-zero initial parameters of the right sizes, used to exercise the
constructors on concrete inputs (the attention module is instantiated as
the map returning its query). -/
def zeroInit (latent ncls : ℕ) : InitParams :=
  ⟨⟨[latent, 768], List.replicate (latent * 768) 0⟩,
    some (List.replicate latent 0),
    List.replicate latent 0,
    List.replicate latent 0,
    fun _ q _ _ => q,
    fun _ => ⟨[latent * 4, latent], List.replicate (latent * 4 * latent) 0⟩,
    fun _ => some (List.replicate (latent * 4) 0),
    fun _ => ⟨[latent, latent * 4], List.replicate (latent * (latent * 4)) 0⟩,
    fun _ => some (List.replicate latent 0),
    ⟨[latent, latent], List.replicate (latent * latent) 0⟩,
    some (List.replicate latent 0),
    ⟨[ncls, latent], List.replicate (ncls * latent) 0⟩,
    some (List.replicate ncls 0)⟩

-- ======================= theorems =======================

theorem chunkGo_eq_of_le {α : Type} (k : ℕ) (hk : 0 < k) :
    ∀ (f : ℕ) (l : List α), l.length ≤ f → chunkGo k f l = chunkGo k l.length l := by
  intro f
  induction f using Nat.strong_induction_on with
  | _ f ih =>
    intro l hl
    match f, l with
    | 0, l =>
      interval_cases hn : l.length
      · cases l with
        | nil => rfl
        | cons a t => simp at hn
    | f + 1, [] => rfl
    | f + 1, a :: t =>
      show ((a :: t).take k) :: chunkGo k f ((a :: t).drop k) = _
      have hlen : (a :: t).length = t.length + 1 := by simp
      rw [hlen]
      show _ = ((a :: t).take k) :: chunkGo k t.length ((a :: t).drop k)
      have hdl : ((a :: t).drop k).length ≤ t.length := by
        simp only [List.length_drop, hlen]
        omega
      have h1 : chunkGo k f ((a :: t).drop k) = chunkGo k ((a :: t).drop k).length ((a :: t).drop k) := by
        apply ih f (Nat.lt_succ_self f)
        have : t.length ≤ f := by simpa [hlen] using hl
        omega
      have h2 : chunkGo k t.length ((a :: t).drop k) = chunkGo k ((a :: t).drop k).length ((a :: t).drop k) := by
        apply ih t.length (by omega)
        exact hdl
      rw [h1, h2]

@[simp] theorem chunkList_nil {α : Type} (k : ℕ) : chunkList k ([] : List α) = [] := by
  unfold chunkList
  by_cases h : k = 0
  · simp [h]
  · rw [if_neg h]
    rfl

theorem list_length_induction {α : Type} {P : List α → Prop}
    (h : ∀ l, (∀ t : List α, t.length < l.length → P t) → P l) : ∀ l, P l := by
  intro l
  generalize hn : l.length = n
  induction n using Nat.strong_induction_on generalizing l with
  | _ n ih =>
    subst hn
    exact h l (fun t ht => ih t.length ht t rfl)

theorem chunkList_cons {α : Type} {k : ℕ} (hk : 0 < k) (l : List α) (hl : l ≠ []) :
    chunkList k l = l.take k :: chunkList k (l.drop k) := by
  cases l with
  | nil => exact absurd rfl hl
  | cons a t =>
    unfold chunkList
    rw [if_neg (by omega), if_neg (by omega)]
    show chunkGo k (t.length + 1) (a :: t) = _
    show ((a :: t).take k) :: chunkGo k t.length ((a :: t).drop k) = _
    congr 1
    rw [chunkGo_eq_of_le k hk t.length ((a :: t).drop k) (by simp; omega)]

theorem chunkList_zero {α : Type} (l : List α) : chunkList 0 l = [] := by
  unfold chunkList
  simp

theorem flatten_chunkList {α : Type} {k : ℕ} (hk : 0 < k) (l : List α) :
    (chunkList k l).flatten = l := by
  induction l using list_length_induction with
  | _ l ih =>
    cases l with
    | nil => simp
    | cons a t =>
      rw [chunkList_cons hk (a :: t) (by simp)]
      rw [List.flatten_cons]
      rw [ih ((a :: t).drop k) (by simp; omega)]
      exact List.take_append_drop k (a :: t)

theorem chunkList_flatten_of_uniform {α : Type} {k : ℕ} (hk : 0 < k) :
    ∀ (L : List (List α)), (∀ r ∈ L, r.length = k) → chunkList k L.flatten = L := by
  intro L
  induction L with
  | nil => intro _; simp
  | cons r L ih =>
    intro hu
    have hr : r.length = k := hu r (by simp)
    have hne : (r :: L).flatten ≠ [] := by
      simp only [List.flatten_cons]
      intro hcon
      have : r = [] := by
        cases r with
        | nil => rfl
        | cons x xs => simp at hcon
      rw [this] at hr
      simp at hr
      omega
    rw [List.flatten_cons]
    rw [chunkList_cons hk _ (by simpa using hne)]
    have htake : (r ++ L.flatten).take k = r := by
      rw [← hr]
      exact List.take_left r L.flatten
    have hdrop : (r ++ L.flatten).drop k = L.flatten := by
      rw [← hr]
      exact List.drop_left r L.flatten
    rw [htake, hdrop, ih (fun s hs => hu s (by simp [hs]))]

theorem length_chunkList {α : Type} {k : ℕ} (hk : 0 < k) (l : List α)
    (hdvd : k ∣ l.length) : (chunkList k l).length = l.length / k := by
  induction l using list_length_induction with
  | _ l ih =>
    cases l with
    | nil => simp
    | cons a t =>
      rw [chunkList_cons hk (a :: t) (by simp)]
      have hlen : k ≤ (a :: t).length := Nat.le_of_dvd (by simp) hdvd
      have hd : ((a :: t).drop k).length = (a :: t).length - k := by simp
      have hdvd2 : k ∣ ((a :: t).drop k).length := by
        rw [hd]
        exact Nat.dvd_sub' hdvd dvd_rfl
      rw [List.length_cons, ih ((a :: t).drop k) (by simp; omega) hdvd2, hd]
      obtain ⟨m, hm⟩ := hdvd
      have hm1 : 1 ≤ m := by
        by_contra hcon
        have : m = 0 := by omega
        rw [this, Nat.mul_zero] at hm
        simp at hm
      obtain ⟨j, rfl⟩ : ∃ j, m = j + 1 := ⟨m - 1, by omega⟩
      rw [hm, Nat.mul_succ]
      rw [show k * j + k - k = k * j by omega]
      rw [Nat.mul_div_cancel_left _ hk]
      rw [show k * j + k = k * (j + 1) by rw [Nat.mul_succ]]
      rw [Nat.mul_div_cancel_left _ hk]

theorem mem_chunkList_length {α : Type} {k : ℕ} (hk : 0 < k) (l : List α)
    (hdvd : k ∣ l.length) : ∀ r ∈ chunkList k l, r.length = k := by
  induction l using list_length_induction with
  | _ l ih =>
    cases l with
    | nil => simp
    | cons a t =>
      rw [chunkList_cons hk (a :: t) (by simp)]
      intro r hr
      have hlen : k ≤ (a :: t).length := Nat.le_of_dvd (by simp) hdvd
      rcases List.mem_cons.mp hr with h | h
      · rw [h, List.length_take]
        omega
      · have hdvd2 : k ∣ ((a :: t).drop k).length := by
          simp only [List.length_drop]
          exact Nat.dvd_sub' hdvd dvd_rfl
        exact ih ((a :: t).drop k) (by simp; omega) hdvd2 r h

theorem length_flatten_of_uniform {α : Type} {k : ℕ} :
    ∀ (L : List (List α)), (∀ r ∈ L, r.length = k) → L.flatten.length = L.length * k := by
  intro L
  induction L with
  | nil => simp
  | cons r L ih =>
    intro hu
    simp only [List.flatten_cons, List.length_append, List.length_cons]
    rw [hu r (by simp), ih (fun s hs => hu s (by simp [hs]))]
    ring

theorem length_flatten_map_of_pres {α : Type} (f : List α → List α)
    (L : List (List α)) (hf : ∀ r ∈ L, (f r).length = r.length) :
    (L.map f).flatten.length = L.flatten.length := by
  induction L with
  | nil => simp
  | cons r L ih =>
    simp only [List.map_cons, List.flatten_cons, List.length_append]
    rw [hf r (by simp), ih (fun s hs => hf s (by simp [hs]))]

theorem zipWith_add_sub_cancel :
    ∀ (a b : List ℚ), a.length = b.length →
      List.zipWith (· + ·) a (List.zipWith (· - ·) b a) = b := by
  intro a
  induction a with
  | nil =>
    intro b hb
    cases b with
    | nil => rfl
    | cons x xs => simp at hb
  | cons x xs ih =>
    intro b hb
    cases b with
    | nil => simp at hb
    | cons y ys =>
      simp only [List.zipWith_cons_cons, List.cons.injEq]
      constructor
      · ring
      · exact ih ys (by simpa using hb)

theorem ratFloor_le (q : ℚ) : (ratFloor q : ℚ) ≤ q := by
  have hden : (0 : ℚ) < (q.den : ℚ) := by exact_mod_cast q.den_pos
  have h := Int.ediv_mul_le q.num (b := (q.den : ℤ)) (by exact_mod_cast q.den_pos.ne')
  have h2 : (ratFloor q : ℚ) * (q.den : ℚ) ≤ (q.num : ℚ) := by
    unfold ratFloor
    exact_mod_cast h
  have h3 : (ratFloor q : ℚ) ≤ (q.num : ℚ) / (q.den : ℚ) := (le_div_iff₀ hden).mpr h2
  rwa [Rat.num_div_den q] at h3

theorem lt_ratFloor_add_one (q : ℚ) : q < ratFloor q + 1 := by
  have hden : (0 : ℚ) < (q.den : ℚ) := by exact_mod_cast q.den_pos
  have h := Int.lt_ediv_add_one_mul_self q.num (b := (q.den : ℤ)) (by exact_mod_cast q.den_pos)
  have h2 : (q.num : ℚ) < ((ratFloor q : ℚ) + 1) * (q.den : ℚ) := by
    unfold ratFloor
    exact_mod_cast h
  have h3 : (q.num : ℚ) / (q.den : ℚ) < (ratFloor q : ℚ) + 1 := (div_lt_iff₀ hden).mpr h2
  rwa [Rat.num_div_den q] at h3

theorem roundEven_sub_abs_le (q : ℚ) : |(roundEven q : ℚ) - q| ≤ 1/2 := by
  have h0 : (ratFloor q : ℚ) ≤ q := ratFloor_le q
  have h1 : q < ratFloor q + 1 := lt_ratFloor_add_one q
  unfold roundEven
  by_cases hlt : q - (ratFloor q : ℚ) < 1/2
  · rw [if_pos hlt, abs_sub_comm, abs_of_nonneg (by linarith)]
    linarith
  · rw [if_neg hlt]
    by_cases hgt : 1/2 < q - (ratFloor q : ℚ)
    · rw [if_pos hgt]
      rw [abs_of_nonneg (by push_cast; linarith)]
      push_cast
      linarith
    · rw [if_neg hgt]
      have heq : q - (ratFloor q : ℚ) = 1/2 := le_antisymm (not_lt.mp hgt) (not_lt.mp hlt)
      by_cases hev : ratFloor q % 2 = 0
      · rw [if_pos hev, abs_sub_comm, abs_of_nonneg (by linarith)]
        linarith
      · rw [if_neg hev]
        rw [abs_of_nonneg (by push_cast; linarith)]
        push_cast
        linarith

theorem roundEven_nearest (q : ℚ) (m : ℤ) :
    |(roundEven q : ℚ) - q| ≤ |(m : ℚ) - q| := by
  by_cases hm : m = roundEven q
  · rw [hm]
  · have h1 : (1 : ℚ) ≤ |(m : ℚ) - (roundEven q : ℚ)| := by
      have : (1 : ℤ) ≤ |m - roundEven q| := by
        rcases lt_trichotomy m (roundEven q) with h | h | h
        · rw [abs_of_neg (by omega)]
          omega
        · exact absurd h hm
        · rw [abs_of_pos (by omega)]
          omega
      calc (1 : ℚ) = ((1 : ℤ) : ℚ) := by norm_num
        _ ≤ ((|m - roundEven q| : ℤ) : ℚ) := by exact_mod_cast this
        _ = |(m : ℚ) - (roundEven q : ℚ)| := by push_cast; ring_nf
    have h2 := roundEven_sub_abs_le q
    have h3 : |(m : ℚ) - (roundEven q : ℚ)| ≤ |(m : ℚ) - q| + |q - (roundEven q : ℚ)| :=
      abs_sub_le _ _ _
    rw [abs_sub_comm q ((roundEven q : ℤ) : ℚ)] at h3
    linarith

theorem roundEven_zero : roundEven 0 = 0 := by
  unfold roundEven ratFloor
  norm_num

theorem clampQ_int_ternary (z : ℤ) :
    clampQ (-1) 1 ((z : ℤ) : ℚ) = -1 ∨ clampQ (-1) 1 ((z : ℤ) : ℚ) = 0 ∨
      clampQ (-1) 1 ((z : ℤ) : ℚ) = 1 := by
  unfold clampQ
  rcases lt_trichotomy z 0 with h | h | h
  · left
    have hz : (z : ℚ) ≤ -1 := by exact_mod_cast (by omega : z ≤ -1)
    rw [min_eq_left (by linarith), max_eq_left (by linarith)]
  · right; left
    subst h
    norm_num
  · right; right
    have hz : (1 : ℚ) ≤ (z : ℚ) := by exact_mod_cast (by omega : (1 : ℤ) ≤ z)
    rw [min_eq_right (by linarith), max_eq_right (by linarith)]

theorem clampQ_int_eq_clamped (z : ℤ) (lo hi : ℤ) :
    clampQ (lo : ℚ) (hi : ℚ) ((z : ℤ) : ℚ) = ((max lo (min z hi) : ℤ) : ℚ) := by
  unfold clampQ
  push_cast
  rfl

theorem clamp_int_mem_Icc (z : ℤ) : max (-128) (min z 127) ∈ Finset.Icc (-128 : ℤ) 127 := by
  simp only [Finset.mem_Icc]
  omega

theorem tensor_ext (a b : Tensor) (hs : a.shape = b.shape) (hd : a.data = b.data) : a = b := by
  cases a
  cases b
  simp_all

theorem rowActQuant_length (r : List ℚ) : (rowActQuant r).length = r.length := by
  unfold rowActQuant
  simp

theorem activation_quant_shape (x : Tensor) : (activation_quant x).shape = x.shape := rfl

theorem weight_quant_shape (w : Tensor) : (weight_quant w).shape = w.shape := rfl

theorem weight_quant_data_length (w : Tensor) :
    (weight_quant w).data.length = w.data.length := by
  unfold weight_quant
  simp

theorem activation_quant_data_length (x : Tensor) (hk : 0 < x.lastDim) :
    (activation_quant x).data.length = x.data.length := by
  unfold activation_quant
  show ((x.rows.map rowActQuant).flatten).length = _
  rw [length_flatten_map_of_pres rowActQuant x.rows (fun r _ => rowActQuant_length r)]
  unfold Tensor.rows
  rw [flatten_chunkList hk]

theorem activation_quant_rows (x : Tensor) (hk : 0 < x.lastDim)
    (hdvd : x.lastDim ∣ x.data.length) :
    (activation_quant x).rows = x.rows.map rowActQuant := by
  show chunkList (activation_quant x).lastDim (x.rows.map rowActQuant).flatten = _
  have hld : (activation_quant x).lastDim = x.lastDim := rfl
  rw [hld]
  apply chunkList_flatten_of_uniform hk
  intro r hr
  obtain ⟨s, hs, rfl⟩ := List.mem_map.mp hr
  rw [rowActQuant_length]
  exact mem_chunkList_length hk x.data hdvd s hs

theorem lnRow_length_of_not_affine (env : TorchEnv) (p : LayerNormP)
    (hp : p.elementwise_affine = false) (r : List ℚ) : (lnRow env p r).length = r.length := by
  unfold lnRow
  rw [hp]
  simp

theorem lnRow_length_of_affine (env : TorchEnv) (p : LayerNormP)
    (hp : p.elementwise_affine = true) (hw : p.weight.length = p.normalized_shape)
    (hb : p.bias.length = p.normalized_shape) (r : List ℚ)
    (hr : r.length = p.normalized_shape) : (lnRow env p r).length = r.length := by
  unfold lnRow
  rw [hp]
  simp [hw, hb, hr]

theorem applyLN_shape (env : TorchEnv) (p : LayerNormP) (t : Tensor) :
    (applyLN env p t).shape = t.shape := rfl

theorem applyLN_data_length_of_not_affine (env : TorchEnv) (p : LayerNormP)
    (hp : p.elementwise_affine = false) (t : Tensor) (hk : 0 < t.lastDim) :
    (applyLN env p t).data.length = t.data.length := by
  unfold applyLN
  show ((t.rows.map (lnRow env p)).flatten).length = _
  rw [length_flatten_map_of_pres _ t.rows (fun r _ => lnRow_length_of_not_affine env p hp r)]
  unfold Tensor.rows
  rw [flatten_chunkList hk]

theorem applyLN_data_length_of_affine (env : TorchEnv) (p : LayerNormP)
    (hp : p.elementwise_affine = true) (hw : p.weight.length = p.normalized_shape)
    (hb : p.bias.length = p.normalized_shape) (t : Tensor)
    (hk : 0 < t.lastDim) (hdvd : t.lastDim ∣ t.data.length)
    (hld : t.lastDim = p.normalized_shape) :
    (applyLN env p t).data.length = t.data.length := by
  unfold applyLN
  show ((t.rows.map (lnRow env p)).flatten).length = _
  rw [length_flatten_map_of_pres _ t.rows (fun r hr =>
    lnRow_length_of_affine env p hp hw hb r
      (by rw [← hld]; exact mem_chunkList_length hk t.data hdvd r hr))]
  unfold Tensor.rows
  rw [flatten_chunkList hk]

theorem applyLN_rows_of_not_affine (env : TorchEnv) (p : LayerNormP)
    (hp : p.elementwise_affine = false) (t : Tensor) (hk : 0 < t.lastDim)
    (hdvd : t.lastDim ∣ t.data.length) :
    (applyLN env p t).rows = t.rows.map (lnRow env p) := by
  show chunkList (applyLN env p t).lastDim (t.rows.map (lnRow env p)).flatten = _
  have hld : (applyLN env p t).lastDim = t.lastDim := rfl
  rw [hld]
  apply chunkList_flatten_of_uniform hk
  intro r hr
  obtain ⟨s, hs, rfl⟩ := List.mem_map.mp hr
  rw [lnRow_length_of_not_affine env p hp]
  exact mem_chunkList_length hk t.data hdvd s hs

theorem getLastD_concat {α : Type} (l : List α) (a d : α) : (l ++ [a]).getLastD d = a := by
  cases l with
  | nil => rfl
  | cons x xs =>
    rw [List.getLastD_eq_getLast?, List.getLast?_concat]
    rfl

theorem lastDim_of_shape_concat (t : Tensor) (s : List ℕ) (a : ℕ) (h : t.shape = s ++ [a]) :
    t.lastDim = a := by
  unfold Tensor.lastDim
  rw [h, getLastD_concat]

theorem tAdd_detach_sub_eq (a fa : Tensor) (hs : fa.shape = a.shape)
    (hl : a.data.length = fa.data.length) :
    tAdd a (tDetach (tSub fa a)) = fa := by
  apply tensor_ext
  · exact hs.symm
  · exact zipWith_add_sub_cancel a.data fa.data hl

/-- Value-level collapse of the detached-delta STE trick on the input: in
the forward pass, x_norm + (activation_quant(x_norm) - x_norm).detach()
equals activation_quant(x_norm). -/
theorem x_quant_collapse (x_norm : Tensor) (hk : 0 < x_norm.lastDim) :
    tAdd x_norm (tDetach (tSub (activation_quant x_norm) x_norm)) = activation_quant x_norm :=
  tAdd_detach_sub_eq x_norm (activation_quant x_norm) (activation_quant_shape x_norm)
    (activation_quant_data_length x_norm hk).symm

/-- Value-level collapse of the detached-delta STE trick on the weight. -/
theorem w_quant_collapse (w : Tensor) :
    tAdd w (tDetach (tSub (weight_quant w) w)) = weight_quant w :=
  tAdd_detach_sub_eq w (weight_quant w) (weight_quant_shape w)
    (weight_quant_data_length w).symm

/-- Forward value of BitLinear: the output is exactly
F.linear(activation_quant(rms_norm(x)), weight_quant(weight), bias). -/
theorem bitLinear_forward_eq (env : TorchEnv) (p : BitLinear) (x : Tensor)
    (hk : 0 < x.lastDim) :
    BitLinear.forward env p x =
      fLinear (weight_quant p.weight) p.bias (activation_quant (applyLN env p.rms_norm x)) := by
  have hk2 : 0 < (applyLN env p.rms_norm x).lastDim := hk
  simp only [BitLinear.forward]
  rw [x_quant_collapse _ hk2, w_quant_collapse]

theorem linearRow_length (wRows : List (List ℚ)) (b : Option (List ℚ)) (outF : ℕ)
    (hw : wRows.length = outF) (hb : ∀ bv ∈ b, bv.length = outF) (r : List ℚ) :
    (linearRow wRows b r).length = outF := by
  unfold linearRow
  cases b with
  | none => simp [hw]
  | some bv =>
    have := hb bv rfl
    simp [hw, this]

theorem weight_rows_count (w : Tensor) (outF inF : ℕ) (hw : w.shape = [outF, inF])
    (hwwf : w.wf) (hin : 0 < inF) : w.rows.length = outF := by
  unfold Tensor.rows
  have hld : w.lastDim = inF := lastDim_of_shape_concat w [outF] inF (by simpa using hw)
  have hlen : w.data.length = outF * inF := by
    have := hwwf
    unfold Tensor.wf at this
    rw [hw] at this
    simpa using this
  rw [hld, length_chunkList hin w.data (by rw [hlen]; exact Dvd.intro outF (Nat.mul_comm inF outF)), hlen,
    Nat.mul_div_cancel _ hin]

/-- Success, output shape and well-formedness of fLinear on a well-formed
input whose last dimension matches the weight width. -/
theorem fLinear_some (w : Tensor) (b : Option (List ℚ)) (x : Tensor)
    (s : List ℕ) (outF inF : ℕ) (hw : w.shape = [outF, inF]) (hwwf : w.wf)
    (hx : x.shape = s ++ [inF]) (hxwf : x.wf) (hin : 0 < inF)
    (hb : ∀ bv ∈ b, bv.length = outF) :
    fLinear w b x = some ⟨s ++ [outF], ((x.rows).map (linearRow w.rows b)).flatten⟩ ∧
      (⟨s ++ [outF], ((x.rows).map (linearRow w.rows b)).flatten⟩ : Tensor).wf := by
  have hxd : x.lastDim = inF := lastDim_of_shape_concat x s inF hx
  have hwd : w.lastDim = inF := lastDim_of_shape_concat w [outF] inF (by simpa using hw)
  have hxlen : x.data.length = s.prod * inF := by
    have := hxwf
    unfold Tensor.wf at this
    rw [hx, List.prod_append] at this
    simpa using this
  have hdvd : x.lastDim ∣ x.data.length := by
    rw [hxd, hxlen]
    exact Dvd.intro s.prod (Nat.mul_comm inF s.prod)
  have hrowsc : x.rows.length = s.prod := by
    unfold Tensor.rows
    rw [hxd, length_chunkList hin x.data (by rwa [← hxd]), hxlen, Nat.mul_div_cancel _ hin]
  have hwrows : w.rows.length = outF := weight_rows_count w outF inF hw hwwf hin
  constructor
  · unfold fLinear
    rw [if_pos (by rw [hxd, hwd])]
    have hhead : w.shape.headD 0 = outF := by rw [hw]; rfl
    have hdrop : x.shape.dropLast = s := by rw [hx]; exact List.dropLast_concat
    rw [hhead, hdrop]
  · unfold Tensor.wf
    show ((x.rows.map (linearRow w.rows b)).flatten).length = (s ++ [outF]).prod
    rw [length_flatten_of_uniform (k := outF) _ (by
      intro r hr
      obtain ⟨u, hu, rfl⟩ := List.mem_map.mp hr
      exact linearRow_length w.rows b outF hwrows hb u)]
    rw [List.length_map, hrowsc, List.prod_append]
    simp [Nat.mul_comm]

theorem ratFloor_eq (q : ℚ) (n : ℤ) (hlo : (n : ℚ) ≤ q) (hhi : q < (n : ℚ) + 1) :
    ratFloor q = n := by
  have h1 := ratFloor_le q
  have h2 := lt_ratFloor_add_one q
  have ha : (ratFloor q : ℚ) < (n : ℚ) + 1 := lt_of_le_of_lt h1 hhi
  have hb : (n : ℚ) < (ratFloor q : ℚ) + 1 := lt_of_le_of_lt hlo h2
  have ha2 : ratFloor q < n + 1 := by exact_mod_cast ha
  have hb2 : n < ratFloor q + 1 := by exact_mod_cast hb
  omega

theorem roundEven_eq_floor (q : ℚ) (n : ℤ) (hf : ratFloor q = n)
    (h : q - (n : ℚ) < 1 / 2) : roundEven q = n := by
  simp only [roundEven]
  rw [hf, if_pos h]

theorem roundEven_eq_ceil (q : ℚ) (n : ℤ) (hf : ratFloor q = n)
    (h : 1 / 2 < q - (n : ℚ)) : roundEven q = n + 1 := by
  simp only [roundEven]
  rw [hf, if_neg (by linarith), if_pos h]

/-- C2: for every tensor x, the STE round and sign primitives return a
tensor of identical shape (round computes the nearest integer of each
element, sign the element sign in {-1, 0, +1}), and for every incoming
gradient tensor g the backward pass of each primitive returns exactly g,
elementwise and identically in shape, with no scaling. -/
theorem C2_ste_primitives (x g : Tensor) :
    (RoundSTE.forward x).shape = x.shape ∧
    (RoundSTE.forward x).data = x.data.map (fun a => ((roundEven a : ℤ) : ℚ)) ∧
    (∀ a ∈ x.data, |((roundEven a : ℤ) : ℚ) - a| ≤ 1 / 2 ∧
      ∀ m : ℤ, |((roundEven a : ℤ) : ℚ) - a| ≤ |(m : ℚ) - a|) ∧
    (SignSTE.forward x).shape = x.shape ∧
    (∀ v ∈ (SignSTE.forward x).data, v = -1 ∨ v = 0 ∨ v = 1) ∧
    RoundSTE.backward g = g ∧ SignSTE.backward g = g := by
  refine ⟨rfl, rfl, ?_, rfl, ?_, rfl, rfl⟩
  · intro a _
    exact ⟨roundEven_sub_abs_le a, fun m => roundEven_nearest a m⟩
  · intro v hv
    have hv2 : v ∈ x.data.map signQ := hv
    obtain ⟨a, _, rfl⟩ := List.mem_map.mp hv2
    unfold signQ
    by_cases h1 : a < 0
    · rw [if_pos h1]
      left
      rfl
    · rw [if_neg h1]
      by_cases h2 : a = 0
      · rw [if_pos h2]
        right
        left
        rfl
      · rw [if_neg h2]
        right
        right
        rfl

/-- C4: weight_quant equals round(w * scale) clamped to [-1, 1] divided
by scale with scale = 1 / max(mean |w|, 1e-5) over the whole tensor, and
the set of distinct output values has at most 3 elements, drawn from
{-1/scale, 0, +1/scale}, regardless of the distribution of w. -/
theorem C4_weight_quant (w : Tensor) :
    (weight_quant w).shape = w.shape ∧
    (weight_quant w).data.length = w.data.length ∧
    ∃ scale : ℚ,
      scale = 1 / max ((w.data.map (fun a => |a|)).sum / (w.data.length : ℚ)) (1 / 100000) ∧
      (weight_quant w).data =
        w.data.map (fun a => clampQ (-1) 1 ((roundEven (a * scale) : ℤ) : ℚ) / scale) ∧
      ∀ v ∈ (weight_quant w).data, v = -1 / scale ∨ v = 0 ∨ v = 1 / scale := by
  refine ⟨rfl, weight_quant_data_length w, ?_⟩
  refine ⟨_, rfl, rfl, ?_⟩
  intro v hv
  have hv2 : v ∈ w.data.map (fun a =>
      clampQ (-1) 1 ((roundEven (a * (1 / max ((w.data.map (fun b => |b|)).sum / (w.data.length : ℚ)) (1 / 100000))) : ℤ) : ℚ) /
        (1 / max ((w.data.map (fun b => |b|)).sum / (w.data.length : ℚ)) (1 / 100000))) := hv
  obtain ⟨a, _, rfl⟩ := List.mem_map.mp hv2
  rcases clampQ_int_ternary (roundEven
      (a * (1 / max ((w.data.map (fun b => |b|)).sum / (w.data.length : ℚ)) (1 / 100000)))) with h | h | h
  · left
    rw [h]
  · right
    left
    rw [h, zero_div]
  · right
    right
    rw [h]

/-- C5: for every input row that is entirely zero, activation_quant
returns an all-zero row, and the epsilon-clamped divisor is positive (no
division by zero). -/
theorem C5_zero_row (x : Tensor) (i : ℕ) (r : List ℚ)
    (hk : 0 < x.lastDim) (hdvd : x.lastDim ∣ x.data.length)
    (hr : x.rows[i]? = some r) (hz : ∀ a ∈ r, a = 0) :
    (activation_quant x).rows[i]? = some (List.replicate r.length 0) ∧
      0 < max (absMaxRow r) finfo_eps := by
  constructor
  · rw [activation_quant_rows x hk hdvd]
    rw [List.getElem?_map, hr]
    show some (rowActQuant r) = _
    congr 1
    rw [List.eq_replicate_iff]
    refine ⟨rowActQuant_length r, ?_⟩
    intro b hb
    have hb2 : b ∈ r.map (fun a =>
        clampQ (-128) 127 ((roundEven (a * (127 / max (absMaxRow r) finfo_eps)) : ℤ) : ℚ) /
          (127 / max (absMaxRow r) finfo_eps)) := hb
    obtain ⟨a, ha, rfl⟩ := List.mem_map.mp hb2
    rw [hz a ha, zero_mul, roundEven_zero]
    show clampQ (-128) 127 ((0 : ℤ) : ℚ) / _ = 0
    norm_num [clampQ]
  · have hpos : (0 : ℚ) < finfo_eps := by norm_num [finfo_eps]
    exact lt_of_lt_of_le hpos (le_max_right _ _)

/-- Witness for C5 at the concrete tensor [[0, 0], [3, 5]] whose first
row is entirely zero. -/
theorem C5_zero_row_witness :
    0 < (⟨[2, 2], [0, 0, 3, 5]⟩ : Tensor).lastDim ∧
    (⟨[2, 2], [0, 0, 3, 5]⟩ : Tensor).lastDim ∣ (⟨[2, 2], ([0, 0, 3, 5] : List ℚ)⟩ : Tensor).data.length ∧
    (⟨[2, 2], [0, 0, 3, 5]⟩ : Tensor).rows[0]? = some [0, 0] ∧
    (∀ a ∈ ([0, 0] : List ℚ), a = 0) ∧
    ((activation_quant ⟨[2, 2], [0, 0, 3, 5]⟩).rows[0]? =
        some (List.replicate ([0, 0] : List ℚ).length 0) ∧
      0 < max (absMaxRow [0, 0]) finfo_eps) := by
  have h1 : 0 < (⟨[2, 2], [0, 0, 3, 5]⟩ : Tensor).lastDim := by decide
  have h2 : (⟨[2, 2], [0, 0, 3, 5]⟩ : Tensor).lastDim ∣
      (⟨[2, 2], ([0, 0, 3, 5] : List ℚ)⟩ : Tensor).data.length := by decide
  have h3 : (⟨[2, 2], [0, 0, 3, 5]⟩ : Tensor).rows[0]? = some [0, 0] := by
    show (chunkList 2 [0, 0, 3, 5])[0]? = _
    rw [chunkList_cons (by norm_num) _ (by simp)]
    rfl
  have h4 : ∀ a ∈ ([0, 0] : List ℚ), a = 0 := by
    intro a ha
    rcases List.mem_cons.mp ha with h | h
    · exact h
    · rcases List.mem_cons.mp h with h | h
      · exact h
      · simp at h
  exact ⟨h1, h2, h3, h4, C5_zero_row ⟨[2, 2], [0, 0, 3, 5]⟩ 0 [0, 0] h1 h2 h3 h4⟩

theorem rows_single (v : ℚ) : (⟨[1, 1], [v]⟩ : Tensor).rows = [[v]] := by
  show chunkList 1 [v] = [[v]]
  rw [chunkList_cons one_pos _ (by simp)]
  rfl

/-- C3 counterexample: the source clamps the divisor with
torch.finfo(dtype).eps, the machine epsilon 2^-23, not with the smallest
representable positive value of the numeric type as the claim states; on
the single-element row [2^-30] the two readings produce different
outputs. -/
theorem C3_counterexample :
    activation_quant ⟨[1, 1], [1 / 2 ^ 30]⟩ ≠
      activation_quant_specEps ⟨[1, 1], [1 / 2 ^ 30]⟩ := by
  have hcode : (activation_quant ⟨[1, 1], [1 / 2 ^ 30]⟩).data = rowActQuant [1 / 2 ^ 30] := by
    show ((Tensor.rows _).map rowActQuant).flatten = _
    rw [rows_single]
    simp
  have hspec : (activation_quant_specEps ⟨[1, 1], [1 / 2 ^ 30]⟩).data =
      rowActQuantSpec [1 / 2 ^ 30] := by
    show ((Tensor.rows _).map rowActQuantSpec).flatten = _
    rw [rows_single]
    simp
  have habs : absMaxRow [1 / 2 ^ 30] = 1 / 2 ^ 30 := by
    unfold absMaxRow
    simp only [List.map_cons, List.map_nil, List.foldr_cons, List.foldr_nil]
    rw [abs_of_pos (by norm_num), max_eq_left (by norm_num)]
  have hc1 : rowActQuant [1 / 2 ^ 30] = [1 / (127 * 2 ^ 23)] := by
    simp only [rowActQuant, List.map_cons, List.map_nil]
    rw [habs]
    rw [max_eq_right (le_of_lt (by norm_num [finfo_eps]))]
    rw [show (127 : ℚ) / finfo_eps = 127 * 2 ^ 23 by norm_num [finfo_eps]]
    rw [show (1 / 2 ^ 30 : ℚ) * (127 * 2 ^ 23) = 127 / 128 by norm_num]
    rw [roundEven_eq_ceil (127 / 128) 0 (ratFloor_eq _ 0 (by norm_num) (by norm_num)) (by norm_num)]
    rw [show (((0 : ℤ) + 1 : ℤ) : ℚ) = 1 by norm_num]
    rw [show clampQ (-128) 127 1 = 1 by norm_num [clampQ]]
  have hs1 : rowActQuantSpec [1 / 2 ^ 30] = [1 / 2 ^ 30] := by
    simp only [rowActQuantSpec, List.map_cons, List.map_nil]
    rw [habs]
    rw [max_eq_left (le_of_lt (by norm_num [spec_smallest_pos]))]
    rw [show (127 : ℚ) / (1 / 2 ^ 30) = 127 * 2 ^ 30 by norm_num]
    rw [show (1 / 2 ^ 30 : ℚ) * (127 * 2 ^ 30) = 127 by norm_num]
    rw [roundEven_eq_floor 127 127 (ratFloor_eq _ 127 (by norm_num) (by norm_num)) (by norm_num)]
    rw [show ((127 : ℤ) : ℚ) = 127 by norm_num]
    rw [show clampQ (-128) 127 127 = 127 by norm_num [clampQ]]
    norm_num
  intro hcon
  have hdata := congrArg Tensor.data hcon
  rw [hcode, hspec, hc1, hs1] at hdata
  have hv : (1 : ℚ) / (127 * 2 ^ 23) = 1 / 2 ^ 30 := List.head_eq_of_cons_eq hdata
  norm_num at hv

/-- C3 (amended): activation_quant has the same shape as its input and is
computed rowwise as round(x * scale) clamped to [-128, 127] divided by
scale, with per-row scale = 127 / max(|row|, eps) where eps is
torch.finfo(dtype).eps, the machine epsilon of the numeric type (2^-23
for float32) — not the smallest representable positive value; each row's
quantized values lie on a grid of at most 256 distinct levels determined
by that row's maximum absolute value. -/
theorem C3_activation_quant (x : Tensor) (hk : 0 < x.lastDim)
    (hdvd : x.lastDim ∣ x.data.length) :
    (activation_quant x).shape = x.shape ∧
    (activation_quant x).data.length = x.data.length ∧
    (activation_quant x).rows = x.rows.map rowActQuant ∧
    (∀ r : List ℚ, rowActQuant r = r.map (fun a =>
      clampQ (-128) 127 ((roundEven (a * (127 / max (absMaxRow r) finfo_eps)) : ℤ) : ℚ) /
        (127 / max (absMaxRow r) finfo_eps))) ∧
    ∀ r ∈ x.rows, ∀ v ∈ rowActQuant r, ∃ k : ℤ, k ∈ Finset.Icc (-128 : ℤ) 127 ∧
      v = (k : ℚ) / (127 / max (absMaxRow r) finfo_eps) := by
  refine ⟨activation_quant_shape x, activation_quant_data_length x hk,
    activation_quant_rows x hk hdvd, fun r => rfl, ?_⟩
  intro r _ v hv
  have hv2 : v ∈ r.map (fun a =>
      clampQ (-128) 127 ((roundEven (a * (127 / max (absMaxRow r) finfo_eps)) : ℤ) : ℚ) /
        (127 / max (absMaxRow r) finfo_eps)) := hv
  obtain ⟨a, _, rfl⟩ := List.mem_map.mp hv2
  refine ⟨max (-128) (min (roundEven (a * (127 / max (absMaxRow r) finfo_eps))) 127),
    clamp_int_mem_Icc _, ?_⟩
  congr 1
  rw [show (-128 : ℚ) = ((-128 : ℤ) : ℚ) by norm_num,
    show (127 : ℚ) = ((127 : ℤ) : ℚ) by norm_num]
  exact clampQ_int_eq_clamped _ (-128) 127

/-- Witness for the amended C3 at the concrete tensor [[0, 0]]. -/
theorem C3_activation_quant_witness :
    0 < (⟨[1, 2], [0, 0]⟩ : Tensor).lastDim ∧
    (⟨[1, 2], [0, 0]⟩ : Tensor).lastDim ∣ (⟨[1, 2], ([0, 0] : List ℚ)⟩ : Tensor).data.length ∧
    ((activation_quant ⟨[1, 2], [0, 0]⟩).shape = (⟨[1, 2], ([0, 0] : List ℚ)⟩ : Tensor).shape ∧
      (activation_quant ⟨[1, 2], [0, 0]⟩).data.length =
        (⟨[1, 2], ([0, 0] : List ℚ)⟩ : Tensor).data.length ∧
      (activation_quant ⟨[1, 2], [0, 0]⟩).rows =
        (⟨[1, 2], ([0, 0] : List ℚ)⟩ : Tensor).rows.map rowActQuant ∧
      (∀ r : List ℚ, rowActQuant r = r.map (fun a =>
        clampQ (-128) 127 ((roundEven (a * (127 / max (absMaxRow r) finfo_eps)) : ℤ) : ℚ) /
          (127 / max (absMaxRow r) finfo_eps))) ∧
      ∀ r ∈ (⟨[1, 2], ([0, 0] : List ℚ)⟩ : Tensor).rows, ∀ v ∈ rowActQuant r,
        ∃ k : ℤ, k ∈ Finset.Icc (-128 : ℤ) 127 ∧
          v = (k : ℚ) / (127 / max (absMaxRow r) finfo_eps)) := by
  have h1 : 0 < (⟨[1, 2], [0, 0]⟩ : Tensor).lastDim := by decide
  have h2 : (⟨[1, 2], [0, 0]⟩ : Tensor).lastDim ∣
      (⟨[1, 2], ([0, 0] : List ℚ)⟩ : Tensor).data.length := by decide
  exact ⟨h1, h2, C3_activation_quant ⟨[1, 2], [0, 0]⟩ h1 h2⟩

theorem bitLinear_some (env : TorchEnv) (p : BitLinear) (x : Tensor) (s : List ℕ)
    (hx : x.shape = s ++ [p.in_features]) (hxwf : x.wf)
    (hw : p.weight.shape = [p.out_features, p.in_features]) (hwwf : p.weight.wf)
    (hrms : p.rms_norm.elementwise_affine = false)
    (hin : 0 < p.in_features)
    (hb : ∀ bv ∈ p.bias, bv.length = p.out_features) :
    ∃ y, BitLinear.forward env p x = some y ∧
      y.shape = s ++ [p.out_features] ∧ y.wf ∧
      fLinear (tAdd p.weight (tDetach (tSub (weight_quant p.weight) p.weight))) p.bias
        (tAdd (applyLN env p.rms_norm x)
          (tDetach (tSub (activation_quant (applyLN env p.rms_norm x))
            (applyLN env p.rms_norm x)))) = some y ∧
      fLinear (weight_quant p.weight) p.bias
        (activation_quant (applyLN env p.rms_norm x)) = some y := by
  have hkx : 0 < x.lastDim := by
    rw [lastDim_of_shape_concat x s _ hx]
    exact hin
  have hxnshape : (applyLN env p.rms_norm x).shape = s ++ [p.in_features] := hx
  have hkxn : 0 < (applyLN env p.rms_norm x).lastDim := hkx
  have hxn_len : (applyLN env p.rms_norm x).data.length = x.data.length :=
    applyLN_data_length_of_not_affine env _ hrms x hkx
  have hxq_len : (activation_quant (applyLN env p.rms_norm x)).data.length =
      (applyLN env p.rms_norm x).data.length :=
    activation_quant_data_length (applyLN env p.rms_norm x) hkxn
  have hxqshape : (activation_quant (applyLN env p.rms_norm x)).shape = s ++ [p.in_features] :=
    hxnshape
  have hxqwf : (activation_quant (applyLN env p.rms_norm x)).wf := by
    unfold Tensor.wf
    rw [hxq_len, hxn_len]
    show x.data.length = (activation_quant (applyLN env p.rms_norm x)).shape.prod
    rw [hxqshape, ← hx]
    exact hxwf
  have hwqshape : (weight_quant p.weight).shape = [p.out_features, p.in_features] := by
    rw [weight_quant_shape]
    exact hw
  have hwqwf : (weight_quant p.weight).wf := by
    unfold Tensor.wf
    rw [weight_quant_data_length, weight_quant_shape]
    exact hwwf
  obtain ⟨heq, hwf⟩ := fLinear_some (weight_quant p.weight) p.bias
    (activation_quant (applyLN env p.rms_norm x)) s p.out_features p.in_features
    hwqshape hwqwf hxqshape hxqwf hin hb
  refine ⟨_, ?_, rfl, hwf, ?_, heq⟩
  · rw [bitLinear_forward_eq env p x hkx]
    exact heq
  · show BitLinear.forward env p x = _
    rw [bitLinear_forward_eq env p x hkx]
    exact heq

/-- C1: for every input tensor whose last dimension equals in_features,
BitLinear.forward returns a tensor preserving all leading dimensions with
last dimension out_features, and its value equals the linear transform of
x_q = x_norm + stopgrad(activation_quant(x_norm) - x_norm) by
w_q = w + stopgrad(weight_quant(w) - w) with the bias applied
unquantized; at value level this is
F.linear(activation_quant(rms_norm(x)), weight_quant(w), bias). -/
theorem C1_bitLinear_forward (env : TorchEnv) (p : BitLinear) (x : Tensor) (s : List ℕ)
    (hx : x.shape = s ++ [p.in_features]) (hxwf : x.wf)
    (hw : p.weight.shape = [p.out_features, p.in_features]) (hwwf : p.weight.wf)
    (hrms : p.rms_norm.elementwise_affine = false)
    (hin : 0 < p.in_features)
    (hb : ∀ bv ∈ p.bias, bv.length = p.out_features) :
    ∃ y, BitLinear.forward env p x = some y ∧
      y.shape = s ++ [p.out_features] ∧ y.wf ∧
      fLinear (tAdd p.weight (tDetach (tSub (weight_quant p.weight) p.weight))) p.bias
        (tAdd (applyLN env p.rms_norm x)
          (tDetach (tSub (activation_quant (applyLN env p.rms_norm x))
            (applyLN env p.rms_norm x)))) = some y ∧
      fLinear (weight_quant p.weight) p.bias
        (activation_quant (applyLN env p.rms_norm x)) = some y :=
  bitLinear_some env p x s hx hxwf hw hwwf hrms hin hb

/-- Witness for C1 at a concrete 1-by-1 layer and input. -/
theorem C1_bitLinear_forward_witness :
    (⟨[1, 1], ([0] : List ℚ)⟩ : Tensor).shape =
        [1] ++ [(mkBitLinear 1 1 ⟨[1, 1], [0]⟩ (some [0])).in_features] ∧
    (⟨[1, 1], ([0] : List ℚ)⟩ : Tensor).wf ∧
    (mkBitLinear 1 1 ⟨[1, 1], [0]⟩ (some [0])).weight.shape =
      [(mkBitLinear 1 1 ⟨[1, 1], [0]⟩ (some [0])).out_features,
        (mkBitLinear 1 1 ⟨[1, 1], [0]⟩ (some [0])).in_features] ∧
    (mkBitLinear 1 1 ⟨[1, 1], [0]⟩ (some [0])).weight.wf ∧
    (mkBitLinear 1 1 ⟨[1, 1], [0]⟩ (some [0])).rms_norm.elementwise_affine = false ∧
    0 < (mkBitLinear 1 1 ⟨[1, 1], [0]⟩ (some [0])).in_features ∧
    (∀ bv ∈ (mkBitLinear 1 1 ⟨[1, 1], [0]⟩ (some [0])).bias,
      bv.length = (mkBitLinear 1 1 ⟨[1, 1], [0]⟩ (some [0])).out_features) ∧
    ∃ y, BitLinear.forward ⟨fun _ => 0, fun _ => 0, fun _ t => t⟩
        (mkBitLinear 1 1 ⟨[1, 1], [0]⟩ (some [0])) ⟨[1, 1], [0]⟩ = some y ∧
      y.shape = [1] ++ [(mkBitLinear 1 1 ⟨[1, 1], [0]⟩ (some [0])).out_features] ∧ y.wf ∧
      fLinear (tAdd (mkBitLinear 1 1 ⟨[1, 1], [0]⟩ (some [0])).weight
          (tDetach (tSub (weight_quant (mkBitLinear 1 1 ⟨[1, 1], [0]⟩ (some [0])).weight)
            (mkBitLinear 1 1 ⟨[1, 1], [0]⟩ (some [0])).weight)))
          (mkBitLinear 1 1 ⟨[1, 1], [0]⟩ (some [0])).bias
        (tAdd (applyLN ⟨fun _ => 0, fun _ => 0, fun _ t => t⟩
            (mkBitLinear 1 1 ⟨[1, 1], [0]⟩ (some [0])).rms_norm ⟨[1, 1], [0]⟩)
          (tDetach (tSub (activation_quant (applyLN ⟨fun _ => 0, fun _ => 0, fun _ t => t⟩
              (mkBitLinear 1 1 ⟨[1, 1], [0]⟩ (some [0])).rms_norm ⟨[1, 1], [0]⟩))
            (applyLN ⟨fun _ => 0, fun _ => 0, fun _ t => t⟩
              (mkBitLinear 1 1 ⟨[1, 1], [0]⟩ (some [0])).rms_norm ⟨[1, 1], [0]⟩)))) = some y ∧
      fLinear (weight_quant (mkBitLinear 1 1 ⟨[1, 1], [0]⟩ (some [0])).weight)
        (mkBitLinear 1 1 ⟨[1, 1], [0]⟩ (some [0])).bias
        (activation_quant (applyLN ⟨fun _ => 0, fun _ => 0, fun _ t => t⟩
          (mkBitLinear 1 1 ⟨[1, 1], [0]⟩ (some [0])).rms_norm ⟨[1, 1], [0]⟩)) = some y := by
  have hb : ∀ bv ∈ (mkBitLinear 1 1 ⟨[1, 1], [0]⟩ (some [0])).bias,
      bv.length = (mkBitLinear 1 1 ⟨[1, 1], [0]⟩ (some [0])).out_features := by
    intro bv hbv
    simp only [mkBitLinear, Option.mem_def, Option.some.injEq] at hbv
    subst hbv
    rfl
  refine ⟨rfl, by unfold Tensor.wf; decide, rfl, by unfold Tensor.wf; decide, rfl, by decide, hb, ?_⟩
  exact C1_bitLinear_forward ⟨fun _ => 0, fun _ => 0, fun _ t => t⟩
    (mkBitLinear 1 1 ⟨[1, 1], [0]⟩ (some [0])) ⟨[1, 1], [0]⟩ [1]
    rfl (by unfold Tensor.wf; decide) rfl (by unfold Tensor.wf; decide) rfl (by decide) hb

theorem tAdd_shape (a b : Tensor) : (tAdd a b).shape = a.shape := rfl

theorem tAdd_data_length (a b : Tensor) :
    (tAdd a b).data.length = min a.data.length b.data.length := by
  unfold tAdd
  simp

theorem lastDim_dvd (t : Tensor) (s : List ℕ) (d : ℕ) (h : t.shape = s ++ [d])
    (hwf : t.wf) : t.lastDim ∣ t.data.length := by
  rw [lastDim_of_shape_concat t s d h]
  have hlen : t.data.length = s.prod * d := by
    unfold Tensor.wf at hwf
    rw [hwf, h, List.prod_append]
    simp
  rw [hlen]
  exact dvd_mul_left d s.prod

theorem expandRows_rows (b m : ℕ) (v : List ℚ) (hv : 0 < v.length) :
    (expandRows b m v).rows = List.replicate (b * m) v := by
  show chunkList (Tensor.lastDim (expandRows b m v)) _ = _
  have hld : Tensor.lastDim (expandRows b m v) = v.length := rfl
  rw [hld]
  apply chunkList_flatten_of_uniform hv
  intro r hr
  rw [List.eq_of_mem_replicate hr]

/-- C7: the additive positional bias of Patch Embedding is a single
latent-dimension vector broadcast over batch and all sequence positions:
every row of pos_embedding.expand(b, m, -1), including the class-token
position, is the same vector. -/
theorem C7_pos_embedding_broadcast (P : InputEmbedding) (b m i j : ℕ)
    (hv : 0 < P.pos_embedding.length) (hi : i < b * m) (hj : j < b * m) :
    (expandRows b m P.pos_embedding).rows[i]? = some P.pos_embedding ∧
    (expandRows b m P.pos_embedding).rows[i]? = (expandRows b m P.pos_embedding).rows[j]? ∧
    (expandRows b m P.pos_embedding).shape = [b, m, P.pos_embedding.length] := by
  have hrows := expandRows_rows b m P.pos_embedding hv
  have hget : ∀ n, n < b * m →
      (expandRows b m P.pos_embedding).rows[n]? = some P.pos_embedding := by
    intro n hn
    rw [hrows]
    rw [List.getElem?_replicate]
    rw [if_pos hn]
  exact ⟨hget i hi, by rw [hget i hi, hget j hj], rfl⟩

/-- Witness for C7 at a concrete embedding module and index pair. -/
theorem C7_pos_embedding_broadcast_witness :
    0 < (mkInputEmbedding 16 3 1 ⟨[1, 768], []⟩ none [0] [5]).pos_embedding.length ∧
    0 < 1 * 2 ∧ 1 < 1 * 2 ∧
    ((expandRows 1 2 (mkInputEmbedding 16 3 1 ⟨[1, 768], []⟩ none [0] [5]).pos_embedding).rows[0]? =
        some (mkInputEmbedding 16 3 1 ⟨[1, 768], []⟩ none [0] [5]).pos_embedding ∧
      (expandRows 1 2 (mkInputEmbedding 16 3 1 ⟨[1, 768], []⟩ none [0] [5]).pos_embedding).rows[0]? =
        (expandRows 1 2 (mkInputEmbedding 16 3 1 ⟨[1, 768], []⟩ none [0] [5]).pos_embedding).rows[1]? ∧
      (expandRows 1 2 (mkInputEmbedding 16 3 1 ⟨[1, 768], []⟩ none [0] [5]).pos_embedding).shape =
        [1, 2, (mkInputEmbedding 16 3 1 ⟨[1, 768], []⟩ none [0] [5]).pos_embedding.length]) :=
  ⟨by decide, by decide, by decide,
    C7_pos_embedding_broadcast (mkInputEmbedding 16 3 1 ⟨[1, 768], []⟩ none [0] [5]) 1 2 0 1
      (by decide) (by decide) (by decide)⟩

theorem tMap_shape (f : ℚ → ℚ) (t : Tensor) : (tMap f t).shape = t.shape := rfl

theorem tMap_data_length (f : ℚ → ℚ) (t : Tensor) :
    (tMap f t).data.length = t.data.length := by
  unfold tMap
  simp

theorem applyLN_preserves (env : TorchEnv) (p : LayerNormP) (t : Tensor) (s : List ℕ) (d : ℕ)
    (ht : t.shape = s ++ [d]) (htwf : t.wf) (hd : 0 < d)
    (hcase : p.elementwise_affine = false ∨
      (p.elementwise_affine = true ∧ p.weight.length = p.normalized_shape ∧
        p.bias.length = p.normalized_shape ∧ d = p.normalized_shape)) :
    (applyLN env p t).shape = t.shape ∧ (applyLN env p t).data.length = t.data.length ∧
      (applyLN env p t).wf := by
  have hld : t.lastDim = d := lastDim_of_shape_concat t s d ht
  have hk : 0 < t.lastDim := by rw [hld]; exact hd
  have hdvd : t.lastDim ∣ t.data.length := lastDim_dvd t s d ht htwf
  have hlen : (applyLN env p t).data.length = t.data.length := by
    rcases hcase with hfalse | ⟨htrue, hwl, hbl, hdn⟩
    · exact applyLN_data_length_of_not_affine env p hfalse t hk
    · exact applyLN_data_length_of_affine env p htrue hwl hbl t hk hdvd (by rw [hld, hdn])
  refine ⟨rfl, hlen, ?_⟩
  unfold Tensor.wf
  rw [hlen]
  show t.data.length = t.shape.prod
  exact htwf

theorem mkLayerNorm_affine_case (n : ℕ) (d : ℕ) (hd : d = n) :
    (mkLayerNorm n true).elementwise_affine = false ∨
      ((mkLayerNorm n true).elementwise_affine = true ∧
        (mkLayerNorm n true).weight.length = (mkLayerNorm n true).normalized_shape ∧
        (mkLayerNorm n true).bias.length = (mkLayerNorm n true).normalized_shape ∧
        d = (mkLayerNorm n true).normalized_shape) := by
  right
  refine ⟨rfl, ?_, ?_, hd⟩
  · show (List.replicate n (1 : ℚ)).length = n
    simp
  · show (List.replicate n (0 : ℚ)).length = n
    simp

theorem encoderBlock_spec (env : TorchEnv)
    (latent nheads : ℕ) (dr : ℚ) (attnRun : Tensor → Tensor → Tensor → Tensor)
    (w1 : Tensor) (b1 : Option (List ℚ)) (w2 : Tensor) (b2 : Option (List ℚ))
    (x : Tensor) (b seq : ℕ)
    (hx : x.shape = [b, seq, latent]) (hxwf : x.wf) (hlat : 0 < latent)
    (hw1 : w1.shape = [latent * 4, latent]) (hw1wf : w1.wf)
    (hb1 : ∀ bv ∈ b1, bv.length = latent * 4)
    (hw2 : w2.shape = [latent, latent * 4]) (hw2wf : w2.wf)
    (hb2 : ∀ bv ∈ b2, bv.length = latent)
    (hattn : ∀ t : Tensor, (attnRun t t t).shape = t.shape ∧
      (attnRun t t t).data.length = t.data.length)
    (hdropS : ∀ r t, (env.dropout r t).shape = t.shape ∧
      (env.dropout r t).data.length = t.data.length) :
    ∃ mlp_out y,
      encMLP env (mkEncoderBlock latent nheads dr attnRun w1 b1 w2 b2)
        (applyLN env (mkLayerNorm latent true)
          (tAdd x (attnRun (applyLN env (mkLayerNorm latent true) x)
            (applyLN env (mkLayerNorm latent true) x)
            (applyLN env (mkLayerNorm latent true) x)))) = some mlp_out ∧
      y = tAdd (tAdd x (attnRun (applyLN env (mkLayerNorm latent true) x)
            (applyLN env (mkLayerNorm latent true) x)
            (applyLN env (mkLayerNorm latent true) x))) mlp_out ∧
      EncoderBlock.forward env (mkEncoderBlock latent nheads dr attnRun w1 b1 w2 b2) x = some y ∧
      y.shape = x.shape ∧ y.wf := by
  have hx3 : x.shape = [b, seq] ++ [latent] := by rw [hx]; rfl
  obtain ⟨hn1s, hn1l, hn1wf⟩ := applyLN_preserves env (mkLayerNorm latent true) x [b, seq] latent
    hx3 hxwf hlat (mkLayerNorm_affine_case latent latent rfl)
  have hattn1 := hattn (applyLN env (mkLayerNorm latent true) x)
  have hress : (tAdd x (attnRun (applyLN env (mkLayerNorm latent true) x)
      (applyLN env (mkLayerNorm latent true) x)
      (applyLN env (mkLayerNorm latent true) x))).shape = x.shape := rfl
  have hresl : (tAdd x (attnRun (applyLN env (mkLayerNorm latent true) x)
      (applyLN env (mkLayerNorm latent true) x)
      (applyLN env (mkLayerNorm latent true) x))).data.length = x.data.length := by
    rw [tAdd_data_length, hattn1.2, hn1l]
    simp
  have hreswf : (tAdd x (attnRun (applyLN env (mkLayerNorm latent true) x)
      (applyLN env (mkLayerNorm latent true) x)
      (applyLN env (mkLayerNorm latent true) x))).wf := by
    unfold Tensor.wf
    rw [hresl, hress]
    exact hxwf
  obtain ⟨hn2s, hn2l, hn2wf⟩ := applyLN_preserves env (mkLayerNorm latent true)
    (tAdd x (attnRun (applyLN env (mkLayerNorm latent true) x)
      (applyLN env (mkLayerNorm latent true) x)
      (applyLN env (mkLayerNorm latent true) x))) [b, seq] latent
    (by rw [hress, hx]; rfl) hreswf hlat (mkLayerNorm_affine_case latent latent rfl)
  obtain ⟨y1, hy1eq, hy1s, hy1wf, _, _⟩ := bitLinear_some env (mkBitLinear latent (latent * 4) w1 b1)
    (applyLN env (mkLayerNorm latent true)
      (tAdd x (attnRun (applyLN env (mkLayerNorm latent true) x)
        (applyLN env (mkLayerNorm latent true) x)
        (applyLN env (mkLayerNorm latent true) x)))) [b, seq]
    (by rw [hn2s, hress, hx]; rfl) hn2wf hw1 hw1wf rfl hlat hb1
  have hg_s : (env.dropout dr (tMap env.gelu y1)).shape = [b, seq] ++ [latent * 4] := by
    rw [(hdropS dr (tMap env.gelu y1)).1, tMap_shape, hy1s]
    rfl
  have hg_wf : (env.dropout dr (tMap env.gelu y1)).wf := by
    unfold Tensor.wf
    rw [(hdropS dr (tMap env.gelu y1)).2, tMap_data_length, hg_s]
    have h := hy1wf
    unfold Tensor.wf at h
    rw [h, hy1s]
    rfl
  obtain ⟨y2, hy2eq, hy2s, hy2wf, _, _⟩ := bitLinear_some env (mkBitLinear (latent * 4) latent w2 b2)
    (env.dropout dr (tMap env.gelu y1)) [b, seq]
    hg_s hg_wf hw2 hw2wf rfl (by show 0 < latent * 4; omega) hb2
  have hmo_s : (env.dropout dr y2).shape = x.shape := by
    rw [(hdropS dr y2).1, hy2s, hx]
    rfl
  have hmo_wf : (env.dropout dr y2).wf := by
    unfold Tensor.wf
    rw [(hdropS dr y2).2, (hdropS dr y2).1]
    exact hy2wf
  have hmlp : encMLP env (mkEncoderBlock latent nheads dr attnRun w1 b1 w2 b2)
      (applyLN env (mkLayerNorm latent true)
        (tAdd x (attnRun (applyLN env (mkLayerNorm latent true) x)
          (applyLN env (mkLayerNorm latent true) x)
          (applyLN env (mkLayerNorm latent true) x)))) = some (env.dropout dr y2) := by
    unfold encMLP
    have hp1 : (mkEncoderBlock latent nheads dr attnRun w1 b1 w2 b2).mlp_lin1 =
        mkBitLinear latent (latent * 4) w1 b1 := rfl
    have hp2 : (mkEncoderBlock latent nheads dr attnRun w1 b1 w2 b2).mlp_lin2 =
        mkBitLinear (latent * 4) latent w2 b2 := rfl
    have hp3 : (mkEncoderBlock latent nheads dr attnRun w1 b1 w2 b2).dropout = dr := rfl
    rw [hp1, hp2, hp3]
    simp only [hy1eq, hy2eq]
  refine ⟨env.dropout dr y2,
    tAdd (tAdd x (attnRun (applyLN env (mkLayerNorm latent true) x)
      (applyLN env (mkLayerNorm latent true) x)
      (applyLN env (mkLayerNorm latent true) x))) (env.dropout dr y2),
    hmlp, rfl, ?_, ?_, ?_⟩
  · unfold EncoderBlock.forward
    have hp4 : (mkEncoderBlock latent nheads dr attnRun w1 b1 w2 b2).norm =
        mkLayerNorm latent true := rfl
    have hp5 : (mkEncoderBlock latent nheads dr attnRun w1 b1 w2 b2).multihead.run = attnRun := rfl
    rw [hp4, hp5]
    simp only [hmlp]
  · rw [tAdd_shape, hress]
  · unfold Tensor.wf
    rw [tAdd_data_length, hresl, (hdropS dr y2).2, tAdd_shape, hress]
    have h1 : y2.data.length = x.data.length := by
      have h := hy2wf
      unfold Tensor.wf at h
      rw [h, hy2s]
      have h2 := hxwf
      unfold Tensor.wf at h2
      rw [h2, hx]
      rfl
    rw [h1, min_self]
    exact hxwf

/-- C8 counterexample: the shared normalization module created by
EncoderBlock.__init__ is nn.LayerNorm(latent_size) with its default
learnable elementwise affine parameters, so the claim that it has no
learnable affine parameters is false. -/
theorem C8_counterexample :
    ¬ ((mkEncoderBlock 64 8 (1 / 2) (fun q _ _ => q)
        ⟨[256, 64], []⟩ none ⟨[64, 256], []⟩ none).norm.elementwise_affine = false) := by
  decide

/-- C8 (amended): the Encoder Block computes
output = residual + mlp_out with residual = input + attention(norm input)
and mlp_out = enc_MLP(norm residual), where both normalization calls use
the one shared norm field of the block; that shared module is
nn.LayerNorm(latent_size) and has learnable elementwise affine
parameters (weight and bias), contrary to the original claim that it has
none. -/
theorem C8_encoder_block (env : TorchEnv) (M : EncoderBlock)
    (latent nheads : ℕ) (dr : ℚ) (attnRun : Tensor → Tensor → Tensor → Tensor)
    (w1 : Tensor) (b1 : Option (List ℚ)) (w2 : Tensor) (b2 : Option (List ℚ))
    (hM : M = mkEncoderBlock latent nheads dr attnRun w1 b1 w2 b2)
    (x : Tensor) (b seq : ℕ)
    (hx : x.shape = [b, seq, latent]) (hxwf : x.wf) (hlat : 0 < latent)
    (hw1 : w1.shape = [latent * 4, latent]) (hw1wf : w1.wf)
    (hb1 : ∀ bv ∈ b1, bv.length = latent * 4)
    (hw2 : w2.shape = [latent, latent * 4]) (hw2wf : w2.wf)
    (hb2 : ∀ bv ∈ b2, bv.length = latent)
    (hattn : ∀ t : Tensor, (attnRun t t t).shape = t.shape ∧
      (attnRun t t t).data.length = t.data.length)
    (hdropS : ∀ r t, (env.dropout r t).shape = t.shape ∧
      (env.dropout r t).data.length = t.data.length) :
    ∃ mlp_out y,
      encMLP env M (applyLN env M.norm
        (tAdd x (M.multihead.run (applyLN env M.norm x) (applyLN env M.norm x)
          (applyLN env M.norm x)))) = some mlp_out ∧
      y = tAdd (tAdd x (M.multihead.run (applyLN env M.norm x) (applyLN env M.norm x)
          (applyLN env M.norm x))) mlp_out ∧
      EncoderBlock.forward env M x = some y ∧
      y.shape = x.shape ∧ y.wf ∧
      M.norm.elementwise_affine = true := by
  subst hM
  obtain ⟨mlp_out, y, h1, h2, h3, h4, h5⟩ := encoderBlock_spec env latent nheads dr attnRun
    w1 b1 w2 b2 x b seq hx hxwf hlat hw1 hw1wf hb1 hw2 hw2wf hb2 hattn hdropS
  exact ⟨mlp_out, y, h1, h2, h3, h4, h5, rfl⟩

/-- Witness for the amended C8 at a concrete one-dimensional block. -/
theorem C8_encoder_block_witness :
    ∃ mlp_out y,
      encMLP ⟨fun _ => 0, fun a => a, fun _ t => t⟩
        (mkEncoderBlock 1 8 (1 / 2) (fun q _ _ => q) ⟨[4, 1], [0, 0, 0, 0]⟩ none
          ⟨[1, 4], [0, 0, 0, 0]⟩ none)
        (applyLN ⟨fun _ => 0, fun a => a, fun _ t => t⟩
          (mkEncoderBlock 1 8 (1 / 2) (fun q _ _ => q) ⟨[4, 1], [0, 0, 0, 0]⟩ none
            ⟨[1, 4], [0, 0, 0, 0]⟩ none).norm
          (tAdd ⟨[1, 1, 1], [0]⟩
            ((mkEncoderBlock 1 8 (1 / 2) (fun q _ _ => q) ⟨[4, 1], [0, 0, 0, 0]⟩ none
              ⟨[1, 4], [0, 0, 0, 0]⟩ none).multihead.run
              (applyLN ⟨fun _ => 0, fun a => a, fun _ t => t⟩
                (mkEncoderBlock 1 8 (1 / 2) (fun q _ _ => q) ⟨[4, 1], [0, 0, 0, 0]⟩ none
                  ⟨[1, 4], [0, 0, 0, 0]⟩ none).norm ⟨[1, 1, 1], [0]⟩)
              (applyLN ⟨fun _ => 0, fun a => a, fun _ t => t⟩
                (mkEncoderBlock 1 8 (1 / 2) (fun q _ _ => q) ⟨[4, 1], [0, 0, 0, 0]⟩ none
                  ⟨[1, 4], [0, 0, 0, 0]⟩ none).norm ⟨[1, 1, 1], [0]⟩)
              (applyLN ⟨fun _ => 0, fun a => a, fun _ t => t⟩
                (mkEncoderBlock 1 8 (1 / 2) (fun q _ _ => q) ⟨[4, 1], [0, 0, 0, 0]⟩ none
                  ⟨[1, 4], [0, 0, 0, 0]⟩ none).norm ⟨[1, 1, 1], [0]⟩)))) = some mlp_out ∧
      y = tAdd (tAdd ⟨[1, 1, 1], [0]⟩
          ((mkEncoderBlock 1 8 (1 / 2) (fun q _ _ => q) ⟨[4, 1], [0, 0, 0, 0]⟩ none
            ⟨[1, 4], [0, 0, 0, 0]⟩ none).multihead.run
            (applyLN ⟨fun _ => 0, fun a => a, fun _ t => t⟩
              (mkEncoderBlock 1 8 (1 / 2) (fun q _ _ => q) ⟨[4, 1], [0, 0, 0, 0]⟩ none
                ⟨[1, 4], [0, 0, 0, 0]⟩ none).norm ⟨[1, 1, 1], [0]⟩)
            (applyLN ⟨fun _ => 0, fun a => a, fun _ t => t⟩
              (mkEncoderBlock 1 8 (1 / 2) (fun q _ _ => q) ⟨[4, 1], [0, 0, 0, 0]⟩ none
                ⟨[1, 4], [0, 0, 0, 0]⟩ none).norm ⟨[1, 1, 1], [0]⟩)
            (applyLN ⟨fun _ => 0, fun a => a, fun _ t => t⟩
              (mkEncoderBlock 1 8 (1 / 2) (fun q _ _ => q) ⟨[4, 1], [0, 0, 0, 0]⟩ none
                ⟨[1, 4], [0, 0, 0, 0]⟩ none).norm ⟨[1, 1, 1], [0]⟩))) mlp_out ∧
      EncoderBlock.forward ⟨fun _ => 0, fun a => a, fun _ t => t⟩
        (mkEncoderBlock 1 8 (1 / 2) (fun q _ _ => q) ⟨[4, 1], [0, 0, 0, 0]⟩ none
          ⟨[1, 4], [0, 0, 0, 0]⟩ none) ⟨[1, 1, 1], [0]⟩ = some y ∧
      y.shape = (⟨[1, 1, 1], ([0] : List ℚ)⟩ : Tensor).shape ∧ y.wf ∧
      (mkEncoderBlock 1 8 (1 / 2) (fun q _ _ => q) ⟨[4, 1], [0, 0, 0, 0]⟩ none
        ⟨[1, 4], [0, 0, 0, 0]⟩ none).norm.elementwise_affine = true := by
  exact C8_encoder_block ⟨fun _ => 0, fun a => a, fun _ t => t⟩
    (mkEncoderBlock 1 8 (1 / 2) (fun q _ _ => q) ⟨[4, 1], [0, 0, 0, 0]⟩ none
      ⟨[1, 4], [0, 0, 0, 0]⟩ none)
    1 8 (1 / 2) (fun q _ _ => q) ⟨[4, 1], [0, 0, 0, 0]⟩ none ⟨[1, 4], [0, 0, 0, 0]⟩ none rfl
    ⟨[1, 1, 1], [0]⟩ 1 1 rfl (by unfold Tensor.wf; decide) (by decide)
    (by decide) (by unfold Tensor.wf; decide)
    (fun bv hbv => (Option.not_mem_none bv hbv).elim)
    (by decide) (by unfold Tensor.wf; decide)
    (fun bv hbv => (Option.not_mem_none bv hbv).elim)
    (fun t => ⟨rfl, rfl⟩) (fun r t => ⟨rfl, rfl⟩)

theorem patchRow_length (x : Tensor) (c h w p bi ii jj : ℕ) :
    (patchRow x c h w p bi ii jj).length = p * p * c := by
  unfold patchRow
  rw [length_flatten_of_uniform (k := p * c) _ ?_]
  · simp [Nat.mul_assoc]
  · intro r hr
    obtain ⟨h1, _, rfl⟩ := List.mem_map.mp hr
    rw [length_flatten_of_uniform (k := c) _ ?_]
    · simp
    · intro s hs
      obtain ⟨w1, _, rfl⟩ := List.mem_map.mp hs
      simp

theorem rearrangeRows_length (p : ℕ) (x : Tensor) (b c h w : ℕ) :
    (rearrangeRows p x b c h w).length = b * ((h / p) * (w / p)) := by
  unfold rearrangeRows
  rw [List.length_flatten]
  rw [List.map_map]
  have : ∀ bi ∈ List.range b,
      (List.length ∘ fun bi =>
        ((List.range (h / p)).map (fun ii =>
          (List.range (w / p)).map (fun jj => patchRow x c h w p bi ii jj))).flatten) bi =
        (h / p) * (w / p) := by
    intro bi _
    show (((List.range (h / p)).map _).flatten).length = _
    rw [length_flatten_of_uniform (k := w / p) _ ?_]
    · simp
    · intro r hr
      obtain ⟨ii, _, rfl⟩ := List.mem_map.mp hr
      simp
  rw [List.sum_eq_card_nsmul _ ((h / p) * (w / p)) ?_]
  · simp [Nat.mul_comm]
  · intro a ha
    obtain ⟨bi, hbi, rfl⟩ := List.mem_map.mp ha
    exact this bi hbi

theorem rearrangeRows_mem (p : ℕ) (x : Tensor) (b c h w : ℕ) :
    ∀ r ∈ rearrangeRows p x b c h w, ∃ bi ii jj, r = patchRow x c h w p bi ii jj := by
  intro r hr
  unfold rearrangeRows at hr
  obtain ⟨inner, hin, hr2⟩ := List.mem_flatten.mp hr
  obtain ⟨bi, _, rfl⟩ := List.mem_map.mp hin
  obtain ⟨inner2, hin2, hr3⟩ := List.mem_flatten.mp hr2
  obtain ⟨ii, _, rfl⟩ := List.mem_map.mp hin2
  obtain ⟨jj, _, rfl⟩ := List.mem_map.mp hr3
  exact ⟨bi, ii, jj, rfl⟩

theorem rearrange_some (p : ℕ) (x : Tensor) (b c h w : ℕ)
    (hsh : x.shape = [b, c, h, w]) (hp : 0 < p) (hh : p ∣ h) (hw : p ∣ w) :
    rearrangeBCHW p x =
      some ⟨[b, (h / p) * (w / p), p * p * c], (rearrangeRows p x b c h w).flatten⟩ := by
  unfold rearrangeBCHW
  rw [hsh]
  show (if 0 < p ∧ p ∣ h ∧ p ∣ w then
    some (⟨[b, (h / p) * (w / p), p * p * c], (rearrangeRows p x b c h w).flatten⟩ : Tensor)
    else none) = _
  rw [if_pos ⟨hp, hh, hw⟩]

theorem rearrange_none (p : ℕ) (x : Tensor) (b c h w : ℕ)
    (hsh : x.shape = [b, c, h, w]) (hcond : ¬(0 < p ∧ p ∣ h ∧ p ∣ w)) :
    rearrangeBCHW p x = none := by
  unfold rearrangeBCHW
  rw [hsh]
  show (if 0 < p ∧ p ∣ h ∧ p ∣ w then
    some (⟨[b, (h / p) * (w / p), p * p * c], (rearrangeRows p x b c h w).flatten⟩ : Tensor)
    else none) = _
  rw [if_neg hcond]

theorem bitLinear_none (env : TorchEnv) (p : BitLinear) (x : Tensor)
    (hne : ¬(x.lastDim = p.weight.lastDim)) : BitLinear.forward env p x = none := by
  simp only [BitLinear.forward, fLinear]
  exact if_neg hne

theorem flatten_getElem_uniform {α : Type} (L : List (List α)) (k : ℕ)
    (hu : ∀ r ∈ L, r.length = k) (i j : ℕ) (hj : j < k) :
    L.flatten[i * k + j]? = (L[i]?).bind (fun r => r[j]?) := by
  induction L generalizing i with
  | nil => simp
  | cons r L ih =>
    have hr : r.length = k := hu r (by simp)
    cases i with
    | zero =>
      simp only [Nat.zero_mul, Nat.zero_add, List.flatten_cons]
      rw [List.getElem?_append]
      rw [if_pos (by omega)]
      simp
    | succ i =>
      simp only [List.flatten_cons]
      rw [List.getElem?_append]
      rw [if_neg (by nlinarith [Nat.succ_mul i k])]
      have harith : (i + 1) * k + j - r.length = i * k + j := by
        rw [hr]
        rw [Nat.succ_mul]
        omega
      rw [harith, ih (fun s hs => hu s (by simp [hs])) i]
      simp

theorem zipWith_flatten_flatten (L1 L2 : List (List ℚ)) (k : ℕ)
    (hu1 : ∀ r ∈ L1, r.length = k) (hu2 : ∀ r ∈ L2, r.length = k)
    (hl : L1.length = L2.length) :
    List.zipWith (· + ·) L1.flatten L2.flatten =
      (List.zipWith (fun r s => List.zipWith (· + ·) r s) L1 L2).flatten := by
  induction L1 generalizing L2 with
  | nil =>
    cases L2 with
    | nil => rfl
    | cons s L2 => simp at hl
  | cons r L1 ih =>
    cases L2 with
    | nil => simp at hl
    | cons s L2 =>
      simp only [List.flatten_cons, List.zipWith_cons_cons]
      rw [List.zipWith_append _ _ _ _ _ (by rw [hu1 r (by simp), hu2 s (by simp)])]
      congr 1
      exact ih L2 (fun t ht => hu1 t (by simp [ht])) (fun t ht => hu2 t (by simp [ht]))
        (by simpa using hl)

theorem zipWith_replicate_right {α β γ : Type} (f : α → β → γ) (L : List α) (v : β) (m : ℕ)
    (hm : L.length = m) :
    List.zipWith f L (List.replicate m v) = L.map (fun r => f r v) := by
  induction L generalizing m with
  | nil => simp
  | cons r L ih =>
    cases m with
    | zero => simp at hm
    | succ m =>
      rw [List.replicate_succ]
      simp only [List.zipWith_cons_cons, List.map_cons]
      rw [ih m (by simpa using hm)]

theorem rows_count (t : Tensor) (s : List ℕ) (d : ℕ) (ht : t.shape = s ++ [d])
    (hwf : t.wf) (hd : 0 < d) : t.rows.length = s.prod := by
  unfold Tensor.rows
  rw [lastDim_of_shape_concat t s d ht]
  have hlen : t.data.length = s.prod * d := by
    unfold Tensor.wf at hwf
    rw [hwf, ht, List.prod_append]
    simp
  rw [length_chunkList hd t.data (by rw [hlen]; exact dvd_mul_left d s.prod), hlen,
    Nat.mul_div_cancel _ hd]

theorem rows_uniform (t : Tensor) (s : List ℕ) (d : ℕ) (ht : t.shape = s ++ [d])
    (hwf : t.wf) (hd : 0 < d) : ∀ r ∈ t.rows, r.length = d := by
  unfold Tensor.rows
  rw [lastDim_of_shape_concat t s d ht]
  exact mem_chunkList_length hd t.data (by
    rw [← lastDim_of_shape_concat t s d ht]
    exact lastDim_dvd t s d ht hwf)

theorem mem_of_mem_chunkList {α : Type} {k : ℕ} (hk : 0 < k) :
    ∀ (l : List α) (r : List α), r ∈ chunkList k l → ∀ a ∈ r, a ∈ l := by
  intro l
  induction l using list_length_induction with
  | _ l ih =>
    intro r hr a ha
    cases l with
    | nil => simp at hr
    | cons x t =>
      rw [chunkList_cons hk (x :: t) (by simp)] at hr
      rcases List.mem_cons.mp hr with h | h
      · subst h
        exact List.mem_of_mem_take ha
      · exact List.mem_of_mem_drop (ih ((x :: t).drop k) (by simp; omega) r h a ha)

theorem catPos_rows_spec (cls pos : List ℚ) (rows : List (List ℚ)) (B n latent : ℕ)
    (hn : 0 < n) (hlat : 0 < latent)
    (hrows_len : rows.length = B * n) (hrows_uni : ∀ r ∈ rows, r.length = latent)
    (hcls : cls.length = latent) (hpos : pos.length = latent) :
    (tAdd ⟨[B, n + 1, latent], (((chunkList n rows).map (fun blk => cls :: blk)).flatten).flatten⟩
      (expandRows B (n + 1) pos)).shape = [B, n + 1, latent] ∧
    (tAdd ⟨[B, n + 1, latent], (((chunkList n rows).map (fun blk => cls :: blk)).flatten).flatten⟩
      (expandRows B (n + 1) pos)).wf ∧
    ∀ bi, bi < B →
      (tAdd ⟨[B, n + 1, latent], (((chunkList n rows).map (fun blk => cls :: blk)).flatten).flatten⟩
        (expandRows B (n + 1) pos)).rows[bi * (n + 1)]? =
          some (List.zipWith (· + ·) cls pos) ∧
      ∀ r, r < n →
        (tAdd ⟨[B, n + 1, latent], (((chunkList n rows).map (fun blk => cls :: blk)).flatten).flatten⟩
          (expandRows B (n + 1) pos)).rows[bi * (n + 1) + r + 1]? =
            (rows[bi * n + r]?).map (fun row => List.zipWith (· + ·) row pos) := by
  have hdvd : n ∣ rows.length := by rw [hrows_len]; exact dvd_mul_left n B
  have hblocks_len : (chunkList n rows).length = B := by
    rw [length_chunkList hn rows hdvd, hrows_len, Nat.mul_div_cancel _ hn]
  have hblocks_uni : ∀ blk ∈ chunkList n rows, blk.length = n :=
    mem_chunkList_length hn rows hdvd
  have hblocks_mem : ∀ blk ∈ chunkList n rows, ∀ r ∈ blk, r ∈ rows :=
    fun blk hblk r hr => mem_of_mem_chunkList hn rows blk hblk r hr
  have hwt_uni : ∀ r ∈ ((chunkList n rows).map (fun blk => cls :: blk)).flatten,
      r.length = latent := by
    intro r hr
    obtain ⟨inner, hin, hr2⟩ := List.mem_flatten.mp hr
    obtain ⟨blk, hblk, rfl⟩ := List.mem_map.mp hin
    rcases List.mem_cons.mp hr2 with h | h
    · rw [h]
      exact hcls
    · exact hrows_uni r (hblocks_mem blk hblk r h)
  have hmb_uni : ∀ l ∈ (chunkList n rows).map (fun blk => cls :: blk), l.length = n + 1 := by
    intro l hl
    obtain ⟨blk, hblk, rfl⟩ := List.mem_map.mp hl
    simp [hblocks_uni blk hblk]
  have hwt_len : (((chunkList n rows).map (fun blk => cls :: blk)).flatten).length
      = B * (n + 1) := by
    rw [length_flatten_of_uniform _ hmb_uni, List.length_map, hblocks_len]
  have hydata : (tAdd
      ⟨[B, n + 1, latent], (((chunkList n rows).map (fun blk => cls :: blk)).flatten).flatten⟩
      (expandRows B (n + 1) pos)).data =
      ((((chunkList n rows).map (fun blk => cls :: blk)).flatten).map
        (fun r => List.zipWith (· + ·) r pos)).flatten := by
    show List.zipWith (· + ·) ((((chunkList n rows).map (fun blk => cls :: blk)).flatten).flatten)
      ((List.replicate (B * (n + 1)) pos).flatten) = _
    rw [zipWith_flatten_flatten _ _ latent hwt_uni
      (fun r hr => by rw [List.eq_of_mem_replicate hr]; exact hpos)
      (by rw [hwt_len]; simp)]
    rw [zipWith_replicate_right _ _ _ _ hwt_len]
  have hymap_uni : ∀ r ∈ (((chunkList n rows).map (fun blk => cls :: blk)).flatten).map
      (fun r => List.zipWith (· + ·) r pos), r.length = latent := by
    intro r hr
    obtain ⟨s, hs, rfl⟩ := List.mem_map.mp hr
    rw [List.length_zipWith, hwt_uni s hs, hpos, min_self]
  have hyrows : (tAdd
      ⟨[B, n + 1, latent], (((chunkList n rows).map (fun blk => cls :: blk)).flatten).flatten⟩
      (expandRows B (n + 1) pos)).rows =
      ((((chunkList n rows).map (fun blk => cls :: blk)).flatten).map
        (fun r => List.zipWith (· + ·) r pos)) := by
    show chunkList _ _ = _
    have hld : (tAdd
        ⟨[B, n + 1, latent], (((chunkList n rows).map (fun blk => cls :: blk)).flatten).flatten⟩
        (expandRows B (n + 1) pos)).lastDim = latent := rfl
    rw [hld, hydata]
    exact chunkList_flatten_of_uniform hlat _ hymap_uni
  have hmf : (((chunkList n rows).map (fun blk => cls :: blk)).flatten).map
      (fun r => List.zipWith (· + ·) r pos) =
      ((chunkList n rows).map
        (fun blk => (cls :: blk).map (fun r => List.zipWith (· + ·) r pos))).flatten := by
    rw [List.map_flatten, List.map_map]
    rfl
  have hmapped_uni : ∀ l ∈ (chunkList n rows).map
      (fun blk => (cls :: blk).map (fun r => List.zipWith (· + ·) r pos)), l.length = n + 1 := by
    intro l hl
    obtain ⟨blk, hblk, rfl⟩ := List.mem_map.mp hl
    simp [hblocks_uni blk hblk]
  refine ⟨rfl, ?_, ?_⟩
  · unfold Tensor.wf
    rw [hydata, length_flatten_of_uniform _ hymap_uni, List.length_map, hwt_len]
    show B * (n + 1) * latent = [B, n + 1, latent].prod
    simp [List.prod_cons]
    ring
  · intro bi hbi
    have hbi2 : bi < (chunkList n rows).length := by rw [hblocks_len]; exact hbi
    obtain ⟨blk, hblkget⟩ : ∃ blk, (chunkList n rows)[bi]? = some blk :=
      ⟨_, List.getElem?_eq_getElem hbi2⟩
    constructor
    · have h0 : (0 : ℕ) < n + 1 := by omega
      have hidx := flatten_getElem_uniform ((chunkList n rows).map
        (fun blk => (cls :: blk).map (fun r => List.zipWith (· + ·) r pos))) (n + 1)
        hmapped_uni bi 0 h0
      rw [Nat.add_zero] at hidx
      rw [hyrows, hmf, hidx, List.getElem?_map, hblkget]
      simp
    · intro r hr
      have hj : r + 1 < n + 1 := by omega
      have hidx := flatten_getElem_uniform ((chunkList n rows).map
        (fun blk => (cls :: blk).map (fun rr => List.zipWith (· + ·) rr pos))) (n + 1)
        hmapped_uni bi (r + 1) hj
      have harith : bi * (n + 1) + r + 1 = bi * (n + 1) + (r + 1) := by omega
      rw [hyrows, hmf, harith, hidx, List.getElem?_map, hblkget]
      have h2 : rows = (chunkList n rows).flatten := (flatten_chunkList hn rows).symm
      have hidx2 := flatten_getElem_uniform (chunkList n rows) n hblocks_uni bi r hr
      rw [h2, hidx2, hblkget]
      simp

theorem inputEmbedding_spec (env : TorchEnv) (p c latent : ℕ) (w : Tensor)
    (bias : Option (List ℚ)) (cls pos : List ℚ) (x : Tensor) (B C H W : ℕ)
    (hx : x.shape = [B, C, H, W]) (hxwf : x.wf)
    (hp : 0 < p) (hc : 0 < c) (hlat : 0 < latent) (hH : 0 < H) (hW : 0 < W)
    (hdH : p ∣ H) (hdW : p ∣ W) (hC : C = c)
    (hw : w.shape = [latent, p * p * c]) (hwwf : w.wf)
    (hbias : ∀ bv ∈ bias, bv.length = latent)
    (hcls : cls.length = latent) (hpos : pos.length = latent) :
    ∃ patches proj y,
      rearrangeBCHW p x = some patches ∧
      BitLinear.forward env (mkBitLinear (p * p * c) latent w bias) patches = some proj ∧
      InputEmbedding.forward env (mkInputEmbedding p c latent w bias cls pos) x = some y ∧
      y.shape = [B, (H / p) * (W / p) + 1, latent] ∧ y.wf ∧
      ∀ bi, bi < B →
        y.rows[bi * ((H / p) * (W / p) + 1)]? = some (List.zipWith (· + ·) cls pos) ∧
        ∀ r, r < (H / p) * (W / p) →
          y.rows[bi * ((H / p) * (W / p) + 1) + r + 1]? =
            (proj.rows[bi * ((H / p) * (W / p)) + r]?).map
              (fun row => List.zipWith (· + ·) row pos) := by
  rw [hC] at hx
  have hn : 0 < (H / p) * (W / p) :=
    Nat.mul_pos (Nat.div_pos (Nat.le_of_dvd hH hdH) hp) (Nat.div_pos (Nat.le_of_dvd hW hdW) hp)
  have hppc : 0 < p * p * c := by positivity
  have hre := rearrange_some p x B c H W hx hp hdH hdW
  have hpat_uniform : ∀ r ∈ rearrangeRows p x B c H W, r.length = p * p * c := by
    intro r hr
    obtain ⟨bi, ii, jj, rfl⟩ := rearrangeRows_mem p x B c H W r hr
    exact patchRow_length x c H W p bi ii jj
  have hpat_len : ((rearrangeRows p x B c H W).flatten).length =
      B * ((H / p) * (W / p)) * (p * p * c) := by
    rw [length_flatten_of_uniform _ hpat_uniform, rearrangeRows_length]
  have hpat_shape : (⟨[B, (H / p) * (W / p), p * p * c],
      (rearrangeRows p x B c H W).flatten⟩ : Tensor).shape =
      [B, (H / p) * (W / p)] ++ [p * p * c] := rfl
  have hpat_wf : (⟨[B, (H / p) * (W / p), p * p * c],
      (rearrangeRows p x B c H W).flatten⟩ : Tensor).wf := by
    unfold Tensor.wf
    show ((rearrangeRows p x B c H W).flatten).length = _
    rw [hpat_len]
    show _ = [B, (H / p) * (W / p), p * p * c].prod
    simp [List.prod_cons]
    ring
  obtain ⟨proj, hproj, hprojs, hprojwf, _, _⟩ := bitLinear_some env
    (mkBitLinear (p * p * c) latent w bias)
    ⟨[B, (H / p) * (W / p), p * p * c], (rearrangeRows p x B c H W).flatten⟩
    [B, (H / p) * (W / p)] hpat_shape hpat_wf hw hwwf rfl hppc hbias
  have hprojs3 : proj.shape = [B, (H / p) * (W / p), latent] := by rw [hprojs]; rfl
  have hprows_len : proj.rows.length = B * ((H / p) * (W / p)) := by
    rw [rows_count proj [B, (H / p) * (W / p)] latent hprojs hprojwf hlat]
    simp
  have hprows_uni : ∀ r ∈ proj.rows, r.length = latent :=
    rows_uniform proj [B, (H / p) * (W / p)] latent hprojs hprojwf hlat
  have hfwd : InputEmbedding.forward env (mkInputEmbedding p c latent w bias cls pos) x =
      some (tAdd
        ⟨[B, (H / p) * (W / p) + 1, latent],
          (((chunkList ((H / p) * (W / p)) proj.rows).map
            (fun blk => cls :: blk)).flatten).flatten⟩
        (expandRows B ((H / p) * (W / p) + 1) pos)) := by
    unfold InputEmbedding.forward
    have hps : (mkInputEmbedding p c latent w bias cls pos).patch_size = p := rfl
    have hbp : (mkInputEmbedding p c latent w bias cls pos).bitlinearProjection =
        mkBitLinear (p * p * c) latent w bias := rfl
    rw [hps, hbp]
    simp only [hre]
    simp only [hproj]
    simp only [hprojs3]
    rfl
  obtain ⟨hys, hywf, hidx⟩ := catPos_rows_spec cls pos proj.rows B ((H / p) * (W / p)) latent
    hn hlat hprows_len hprows_uni hcls hpos
  exact ⟨_, proj, _, hre, hproj, hfwd, hys, hywf, hidx⟩

/-- C6 counterexample: the claim says the Patch Embedding forward on a
[B, C, H, W] batch succeeds exactly when patch_size divides H and W, but
on a single-channel 16-by-16 image with patch_size 16 (both divisions
exact) the forward still fails, because the flattened patch width
16*16*1 does not match the projection's in_features 16*16*3. -/
theorem C6_counterexample :
    ((16 : ℕ) ∣ 16 ∧ (16 : ℕ) ∣ 16) ∧
    InputEmbedding.forward ⟨fun _ => 0, fun a => a, fun _ t => t⟩
      (mkInputEmbedding 16 3 4 ⟨[4, 768], List.replicate 3072 0⟩ none
        (List.replicate 4 0) (List.replicate 4 0))
      ⟨[1, 1, 16, 16], List.replicate 256 0⟩ = none := by
  refine ⟨⟨dvd_rfl, dvd_rfl⟩, ?_⟩
  have hre := rearrange_some 16 ⟨[1, 1, 16, 16], List.replicate 256 0⟩ 1 1 16 16 rfl
    (by norm_num) dvd_rfl dvd_rfl
  have hbl : BitLinear.forward ⟨fun _ => 0, fun a => a, fun _ t => t⟩
      (mkInputEmbedding 16 3 4 ⟨[4, 768], List.replicate 3072 0⟩ none
        (List.replicate 4 0) (List.replicate 4 0)).bitlinearProjection
      ⟨[1, (16 / 16) * (16 / 16), 16 * 16 * 1],
        (rearrangeRows 16 ⟨[1, 1, 16, 16], List.replicate 256 0⟩ 1 1 16 16).flatten⟩ = none := by
    apply bitLinear_none
    decide
  unfold InputEmbedding.forward
  have hps : (mkInputEmbedding 16 3 4 ⟨[4, 768], List.replicate 3072 0⟩ none
      (List.replicate 4 0) (List.replicate 4 0)).patch_size = 16 := rfl
  rw [hps]
  simp only [hre]
  simp only [hbl]

/-- C6 (amended): for an image batch of shape [B, C, H, W], Patch
Embedding's forward succeeds exactly when patch_size divides both H and W
and C equals the configured channel count (the claim omitted the channel
condition: with divisibility satisfied but C different from n_channels
the projection raises a shape error); on success it returns a tensor of
shape [B, (H/patch_size)(W/patch_size) + 1, latent_dim] whose sequence
index 0 holds the class token (plus the broadcast positional bias) and
whose later indices hold the projected patches (plus the same bias). -/
theorem C6_patch_embedding (env : TorchEnv) (p c latent : ℕ) (w : Tensor)
    (bias : Option (List ℚ)) (cls pos : List ℚ) (x : Tensor) (B C H W : ℕ)
    (hx : x.shape = [B, C, H, W]) (hxwf : x.wf)
    (hp : 0 < p) (hc : 0 < c) (hlat : 0 < latent) (hH : 0 < H) (hW : 0 < W)
    (hw : w.shape = [latent, p * p * c]) (hwwf : w.wf)
    (hbias : ∀ bv ∈ bias, bv.length = latent)
    (hcls : cls.length = latent) (hpos : pos.length = latent) :
    ((∃ y, InputEmbedding.forward env (mkInputEmbedding p c latent w bias cls pos) x = some y) ↔
      (p ∣ H ∧ p ∣ W ∧ C = c)) ∧
    ((p ∣ H ∧ p ∣ W ∧ C = c) → ∃ patches proj y,
      rearrangeBCHW p x = some patches ∧
      BitLinear.forward env (mkBitLinear (p * p * c) latent w bias) patches = some proj ∧
      InputEmbedding.forward env (mkInputEmbedding p c latent w bias cls pos) x = some y ∧
      y.shape = [B, (H / p) * (W / p) + 1, latent] ∧ y.wf ∧
      ∀ bi, bi < B →
        y.rows[bi * ((H / p) * (W / p) + 1)]? = some (List.zipWith (· + ·) cls pos) ∧
        ∀ r, r < (H / p) * (W / p) →
          y.rows[bi * ((H / p) * (W / p) + 1) + r + 1]? =
            (proj.rows[bi * ((H / p) * (W / p)) + r]?).map
              (fun row => List.zipWith (· + ·) row pos)) := by
  have hps : (mkInputEmbedding p c latent w bias cls pos).patch_size = p := rfl
  constructor
  · constructor
    · rintro ⟨y, hy⟩
      by_cases hdH : p ∣ H
      · by_cases hdW : p ∣ W
        · by_cases hC : C = c
          · exact ⟨hdH, hdW, hC⟩
          · exfalso
            have hre := rearrange_some p x B C H W hx hp hdH hdW
            have hbl : BitLinear.forward env
                (mkInputEmbedding p c latent w bias cls pos).bitlinearProjection
                ⟨[B, (H / p) * (W / p), p * p * C],
                  (rearrangeRows p x B C H W).flatten⟩ = none := by
              apply bitLinear_none
              have h1 : (⟨[B, (H / p) * (W / p), p * p * C],
                  (rearrangeRows p x B C H W).flatten⟩ : Tensor).lastDim = p * p * C := rfl
              have h2 : (mkInputEmbedding p c latent w bias
                  cls pos).bitlinearProjection.weight.lastDim = p * p * c := by
                show w.lastDim = p * p * c
                exact lastDim_of_shape_concat w [latent] (p * p * c) (by rw [hw]; rfl)
              rw [h1, h2]
              intro heq
              exact hC (Nat.eq_of_mul_eq_mul_left (Nat.mul_pos hp hp) heq)
            have hnone : InputEmbedding.forward env
                (mkInputEmbedding p c latent w bias cls pos) x = none := by
              unfold InputEmbedding.forward
              rw [hps]
              simp only [hre]
              simp only [hbl]
            rw [hnone] at hy
            exact Option.noConfusion hy
        · exfalso
          have hre := rearrange_none p x B C H W hx (by
            intro hcon
            exact hdW hcon.2.2)
          have hnone : InputEmbedding.forward env
              (mkInputEmbedding p c latent w bias cls pos) x = none := by
            unfold InputEmbedding.forward
            rw [hps]
            simp only [hre]
          rw [hnone] at hy
          exact Option.noConfusion hy
      · exfalso
        have hre := rearrange_none p x B C H W hx (by
          intro hcon
          exact hdH hcon.2.1)
        have hnone : InputEmbedding.forward env
            (mkInputEmbedding p c latent w bias cls pos) x = none := by
          unfold InputEmbedding.forward
          rw [hps]
          simp only [hre]
        rw [hnone] at hy
        exact Option.noConfusion hy
    · rintro ⟨hdH, hdW, hC⟩
      obtain ⟨patches, proj, y, _, _, hfwd, _⟩ := inputEmbedding_spec env p c latent w bias
        cls pos x B C H W hx hxwf hp hc hlat hH hW hdH hdW hC hw hwwf hbias hcls hpos
      exact ⟨y, hfwd⟩
  · rintro ⟨hdH, hdW, hC⟩
    exact inputEmbedding_spec env p c latent w bias cls pos x B C H W hx hxwf hp hc hlat
      hH hW hdH hdW hC hw hwwf hbias hcls hpos

/-- Witness for the amended C6 at a concrete one-pixel configuration. -/
theorem C6_patch_embedding_witness :
    ((∃ y, InputEmbedding.forward ⟨fun _ => 0, fun a => a, fun _ t => t⟩
        (mkInputEmbedding 1 1 1 ⟨[1, 1], [0]⟩ none [0] [0]) ⟨[1, 1, 1, 1], [7]⟩ = some y) ↔
      ((1 : ℕ) ∣ 1 ∧ (1 : ℕ) ∣ 1 ∧ (1 : ℕ) = 1)) ∧
    (((1 : ℕ) ∣ 1 ∧ (1 : ℕ) ∣ 1 ∧ (1 : ℕ) = 1) → ∃ patches proj y,
      rearrangeBCHW 1 ⟨[1, 1, 1, 1], [7]⟩ = some patches ∧
      BitLinear.forward ⟨fun _ => 0, fun a => a, fun _ t => t⟩
        (mkBitLinear (1 * 1 * 1) 1 ⟨[1, 1], [0]⟩ none) patches = some proj ∧
      InputEmbedding.forward ⟨fun _ => 0, fun a => a, fun _ t => t⟩
        (mkInputEmbedding 1 1 1 ⟨[1, 1], [0]⟩ none [0] [0]) ⟨[1, 1, 1, 1], [7]⟩ = some y ∧
      y.shape = [1, (1 / 1) * (1 / 1) + 1, 1] ∧ y.wf ∧
      ∀ bi, bi < 1 →
        y.rows[bi * ((1 / 1) * (1 / 1) + 1)]? = some (List.zipWith (· + ·) [0] [0]) ∧
        ∀ r, r < (1 / 1) * (1 / 1) →
          y.rows[bi * ((1 / 1) * (1 / 1) + 1) + r + 1]? =
            (proj.rows[bi * ((1 / 1) * (1 / 1)) + r]?).map
              (fun row => List.zipWith (· + ·) row [0])) :=
  C6_patch_embedding ⟨fun _ => 0, fun a => a, fun _ t => t⟩ 1 1 1 ⟨[1, 1], [0]⟩ none [0] [0]
    ⟨[1, 1, 1, 1], [7]⟩ 1 1 1 1 rfl (by unfold Tensor.wf; decide) (by decide) (by decide)
    (by decide) (by decide) (by decide) rfl (by unfold Tensor.wf; decide)
    (fun bv hbv => (Option.not_mem_none bv hbv).elim) rfl rfl

theorem selectCls_spec (t : Tensor) (b n d : ℕ) (ht : t.shape = [b, n, d]) (htwf : t.wf)
    (hn : 0 < n) (hd : 0 < d) :
    selectCls t = some ⟨[b, d], ((chunkList (n * d) t.data).map (List.take d)).flatten⟩ ∧
      (⟨[b, d], ((chunkList (n * d) t.data).map (List.take d)).flatten⟩ : Tensor).wf := by
  have hnd : 0 < n * d := Nat.mul_pos hn hd
  have hlen : t.data.length = b * (n * d) := by
    unfold Tensor.wf at htwf
    rw [htwf, ht]
    simp [List.prod_cons]
  have hdvd : n * d ∣ t.data.length := by
    rw [hlen]
    exact dvd_mul_left (n * d) b
  constructor
  · unfold selectCls
    rw [ht]
    show (if 0 < n then
      some (⟨[b, d], ((chunkList (n * d) t.data).map (List.take d)).flatten⟩ : Tensor)
      else none) = _
    rw [if_pos hn]
  · unfold Tensor.wf
    show (((chunkList (n * d) t.data).map (List.take d)).flatten).length = [b, d].prod
    rw [length_flatten_of_uniform (k := d) _ ?_]
    · rw [List.length_map, length_chunkList hnd t.data hdvd, hlen,
        Nat.mul_div_cancel _ hnd]
      simp
    · intro r hr
      obtain ⟨s, hs, rfl⟩ := List.mem_map.mp hr
      rw [List.length_take, mem_chunkList_length hnd t.data hdvd s hs]
      exact Nat.min_eq_left (Nat.le_mul_of_pos_left d hn)

theorem encoderFold_preserve (env : TorchEnv) (blocks : List EncoderBlock) :
    ∀ (x : Tensor),
      (∀ blk ∈ blocks, ∀ t : Tensor, t.shape = x.shape → t.wf →
        ∃ y, EncoderBlock.forward env blk t = some y ∧ y.shape = t.shape ∧ y.wf) →
      x.wf → ∃ y, encoderFold env blocks x = some y ∧ y.shape = x.shape ∧ y.wf := by
  induction blocks with
  | nil =>
    intro x _ hwf
    exact ⟨x, rfl, rfl, hwf⟩
  | cons blk rest ih =>
    intro x h hwf
    obtain ⟨y1, hy1, hy1s, hy1wf⟩ := h blk (by simp) x rfl hwf
    obtain ⟨y2, hy2, hy2s, hy2wf⟩ := ih y1 (fun bb hb t ht htwf => by
      obtain ⟨z, hz, hzs, hzwf⟩ := h bb (by simp [hb]) t (by rw [ht, hy1s]) htwf
      exact ⟨z, hz, hzs, hzwf⟩) hy1wf
    refine ⟨y2, ?_, by rw [hy2s, hy1s], hy2wf⟩
    show (match EncoderBlock.forward env blk x with
      | none => none
      | some t2 => encoderFold env rest t2) = some y2
    simp only [hy1]
    exact hy2

/-- C9 counterexample: VisionTransformer cannot be configured with
num_heads = 4; its constructor does not accept a head count and builds
every EncoderBlock with the default num_heads = 8. -/
theorem C9_counterexample :
    ¬ (∀ blk ∈ (mkVisionTransformer 2 64 10 (1 / 2) (zeroInit 64 10)).encoder_stack,
        blk.multihead.num_heads = 4) := by
  intro h
  have hmem : mkEncoderBlock 64 8 (1 / 2) ((zeroInit 64 10).attnRun 0) ((zeroInit 64 10).w1 0)
      ((zeroInit 64 10).b1 0) ((zeroInit 64 10).w2 0) ((zeroInit 64 10).b2 0) ∈
      (mkVisionTransformer 2 64 10 (1 / 2) (zeroInit 64 10)).encoder_stack :=
    List.mem_map.mpr ⟨0, by decide, rfl⟩
  exact absurd (h _ hmem) (by decide)

/-- C9 (amended): a Transformer Assembly constructed with num_encoders=2,
latent_size=64, num_classes=10 (num_heads is not configurable: every
encoder block is built with the default 8 heads, and the patch size is
the default 16), given a batch of shape [4, 3, 32, 32] in evaluation mode
(dropout is the identity), returns logits of shape [4, 10]; the forward
map is a deterministic function, so two passes on identical input give
identical output. -/
theorem C9_end_to_end (env : TorchEnv) (init : InitParams) (x : Tensor)
    (hx : x.shape = [4, 3, 32, 32]) (hxwf : x.wf)
    (heval : env.evalMode)
    (hembW : init.embW.shape = [64, 768]) (hembWwf : init.embW.wf)
    (hembB : ∀ bv ∈ init.embB, bv.length = 64)
    (hcls : init.cls.length = 64) (hpos : init.pos.length = 64)
    (hattn : ∀ (i : ℕ) (t : Tensor), (init.attnRun i t t t).shape = t.shape ∧
      (init.attnRun i t t t).data.length = t.data.length)
    (hw1 : ∀ i, (init.w1 i).shape = [64 * 4, 64] ∧ (init.w1 i).wf)
    (hb1 : ∀ i, ∀ bv ∈ init.b1 i, bv.length = 64 * 4)
    (hw2 : ∀ i, (init.w2 i).shape = [64, 64 * 4] ∧ (init.w2 i).wf)
    (hb2 : ∀ i, ∀ bv ∈ init.b2 i, bv.length = 64)
    (hhw1 : init.headW1.shape = [64, 64]) (hhw1wf : init.headW1.wf)
    (hhb1 : ∀ bv ∈ init.headB1, bv.length = 64)
    (hhw2 : init.headW2.shape = [10, 64]) (hhw2wf : init.headW2.wf)
    (hhb2 : ∀ bv ∈ init.headB2, bv.length = 10) :
    ∃ y, VisionTransformer.forward env (mkVisionTransformer 2 64 10 (1 / 2) init) x = some y ∧
      y.shape = [4, 10] ∧ y.wf ∧
      (∀ y₁ y₂,
        VisionTransformer.forward env (mkVisionTransformer 2 64 10 (1 / 2) init) x = some y₁ →
        VisionTransformer.forward env (mkVisionTransformer 2 64 10 (1 / 2) init) x = some y₂ →
        y₁ = y₂) ∧
      ∀ blk ∈ (mkVisionTransformer 2 64 10 (1 / 2) init).encoder_stack,
        blk.multihead.num_heads = 8 := by
  have hdropS : ∀ r t, (env.dropout r t).shape = t.shape ∧
      (env.dropout r t).data.length = t.data.length := by
    intro r t
    rw [heval r t]
    exact ⟨rfl, rfl⟩
  obtain ⟨patches, proj, ye, _, _, hemb, hyes, hyewf, _⟩ :=
    inputEmbedding_spec env 16 3 64 init.embW init.embB init.cls init.pos x 4 3 32 32
      hx hxwf (by norm_num) (by norm_num) (by norm_num) (by norm_num) (by norm_num)
      (by norm_num) (by norm_num) rfl hembW hembWwf hembB hcls hpos
  have hyes5 : ye.shape = [4, 5, 64] := by rw [hyes]
  obtain ⟨yenc, hfold, hfolds, hfoldwf⟩ := encoderFold_preserve env
    ((List.range 2).map (fun i => mkEncoderBlock 64 8 (1 / 2) (init.attnRun i) (init.w1 i)
      (init.b1 i) (init.w2 i) (init.b2 i))) ye
    (fun blk hblk t ht htwf => by
      obtain ⟨i, _, rfl⟩ := List.mem_map.mp hblk
      obtain ⟨mlp, z, _, _, hzf, hzs, hzwf⟩ := encoderBlock_spec env 64 8 (1 / 2)
        (init.attnRun i) (init.w1 i) (init.b1 i) (init.w2 i) (init.b2 i) t 4 5
        (by rw [ht, hyes5]) htwf (by norm_num) (hw1 i).1 (hw1 i).2 (hb1 i)
        (hw2 i).1 (hw2 i).2 (hb2 i) (fun t2 => hattn i t2) hdropS
      exact ⟨z, hzf, hzs, hzwf⟩) hyewf
  have hyencs : yenc.shape = [4, 5, 64] := by rw [hfolds, hyes5]
  obtain ⟨hsel, hselwf⟩ := selectCls_spec yenc 4 5 64 hyencs hfoldwf (by norm_num) (by norm_num)
  obtain ⟨hhns, hhnl, hhnwf⟩ := applyLN_preserves env (mkLayerNorm 64 true)
    ⟨[4, 64], ((chunkList (5 * 64) yenc.data).map (List.take 64)).flatten⟩ [4] 64
    rfl hselwf (by norm_num) (mkLayerNorm_affine_case 64 64 rfl)
  obtain ⟨h1v, hl1eq, hl1s, hl1wf, _, _⟩ := bitLinear_some env
    (mkBitLinear 64 64 init.headW1 init.headB1)
    (applyLN env (mkLayerNorm 64 true)
      ⟨[4, 64], ((chunkList (5 * 64) yenc.data).map (List.take 64)).flatten⟩)
    [4] (by rw [hhns]; rfl) hhnwf hhw1 hhw1wf rfl (by show (0:ℕ) < 64; norm_num) hhb1
  have hguS : (tMap env.gelu h1v).shape = [4] ++ [64] := by
    rw [tMap_shape, hl1s]
    rfl
  have hguWf : (tMap env.gelu h1v).wf := by
    unfold Tensor.wf
    rw [tMap_data_length, tMap_shape]
    exact hl1wf
  obtain ⟨yfin, hl2eq, hl2s, hl2wf, _, _⟩ := bitLinear_some env
    (mkBitLinear 64 10 init.headW2 init.headB2) (tMap env.gelu h1v) [4]
    hguS hguWf hhw2 hhw2wf rfl (by show (0:ℕ) < 64; norm_num) hhb2
  have hfwd : VisionTransformer.forward env (mkVisionTransformer 2 64 10 (1 / 2) init) x =
      some yfin := by
    unfold VisionTransformer.forward
    have hp1 : (mkVisionTransformer 2 64 10 (1 / 2) init).input_embedding =
        mkInputEmbedding 16 3 64 init.embW init.embB init.cls init.pos := rfl
    have hp2 : (mkVisionTransformer 2 64 10 (1 / 2) init).encoder_stack =
        (List.range 2).map (fun i => mkEncoderBlock 64 8 (1 / 2) (init.attnRun i) (init.w1 i)
          (init.b1 i) (init.w2 i) (init.b2 i)) := rfl
    have hp3 : (mkVisionTransformer 2 64 10 (1 / 2) init).head_norm = mkLayerNorm 64 true := rfl
    have hp4 : (mkVisionTransformer 2 64 10 (1 / 2) init).head_lin1 =
        mkBitLinear 64 64 init.headW1 init.headB1 := rfl
    have hp5 : (mkVisionTransformer 2 64 10 (1 / 2) init).head_lin2 =
        mkBitLinear 64 10 init.headW2 init.headB2 := rfl
    rw [hp1, hp2, hp3, hp4, hp5]
    simp only [hemb]
    simp only [hfold]
    simp only [hsel]
    simp only [hl1eq]
    exact hl2eq
  refine ⟨yfin, hfwd, by rw [hl2s]; rfl, hl2wf, ?_, ?_⟩
  · intro y₁ y₂ h₁ h₂
    rw [h₁] at h₂
    exact Option.some.inj h₂
  · intro blk hblk
    have hblk2 : blk ∈ (List.range 2).map (fun i => mkEncoderBlock 64 8 (1 / 2)
        (init.attnRun i) (init.w1 i) (init.b1 i) (init.w2 i) (init.b2 i)) := hblk
    obtain ⟨i, _, rfl⟩ := List.mem_map.mp hblk2
    rfl

/-- Witness for the amended C9 at the all-zero initialization and an
all-zero [4, 3, 32, 32] batch. -/
theorem C9_end_to_end_witness :
    ∃ y, VisionTransformer.forward ⟨fun _ => 0, fun a => a, fun _ t => t⟩
        (mkVisionTransformer 2 64 10 (1 / 2) (zeroInit 64 10))
        ⟨[4, 3, 32, 32], List.replicate 12288 0⟩ = some y ∧
      y.shape = [4, 10] ∧ y.wf ∧
      (∀ y₁ y₂,
        VisionTransformer.forward ⟨fun _ => 0, fun a => a, fun _ t => t⟩
          (mkVisionTransformer 2 64 10 (1 / 2) (zeroInit 64 10))
          ⟨[4, 3, 32, 32], List.replicate 12288 0⟩ = some y₁ →
        VisionTransformer.forward ⟨fun _ => 0, fun a => a, fun _ t => t⟩
          (mkVisionTransformer 2 64 10 (1 / 2) (zeroInit 64 10))
          ⟨[4, 3, 32, 32], List.replicate 12288 0⟩ = some y₂ →
        y₁ = y₂) ∧
      ∀ blk ∈ (mkVisionTransformer 2 64 10 (1 / 2) (zeroInit 64 10)).encoder_stack,
        blk.multihead.num_heads = 8 := by
  have hoptlen : ∀ (n : ℕ) (bv : List ℚ), bv ∈ some (List.replicate n (0 : ℚ)) →
      bv.length = n := by
    intro n bv hbv
    simp only [Option.mem_def, Option.some.injEq] at hbv
    subst hbv
    simp
  exact C9_end_to_end ⟨fun _ => 0, fun a => a, fun _ t => t⟩ (zeroInit 64 10)
    ⟨[4, 3, 32, 32], List.replicate 12288 0⟩ rfl
    (by show (List.replicate 12288 (0 : ℚ)).length = [4, 3, 32, 32].prod
        rw [List.length_replicate]
        norm_num [List.prod_cons])
    (fun r t => rfl)
    rfl
    (by show (List.replicate (64 * 768) (0 : ℚ)).length = [64, 768].prod
        rw [List.length_replicate]
        norm_num [List.prod_cons])
    (fun bv hbv => hoptlen 64 bv hbv)
    (by show (List.replicate 64 (0 : ℚ)).length = 64; rw [List.length_replicate])
    (by show (List.replicate 64 (0 : ℚ)).length = 64; rw [List.length_replicate])
    (fun i t => ⟨rfl, rfl⟩)
    (fun i => ⟨rfl, by
      show (List.replicate (64 * 4 * 64) (0 : ℚ)).length = [64 * 4, 64].prod
      rw [List.length_replicate]
      norm_num [List.prod_cons]⟩)
    (fun i bv hbv => hoptlen (64 * 4) bv hbv)
    (fun i => ⟨rfl, by
      show (List.replicate (64 * (64 * 4)) (0 : ℚ)).length = [64, 64 * 4].prod
      rw [List.length_replicate]
      norm_num [List.prod_cons]⟩)
    (fun i bv hbv => hoptlen 64 bv hbv)
    rfl
    (by show (List.replicate (64 * 64) (0 : ℚ)).length = [64, 64].prod
        rw [List.length_replicate]
        norm_num [List.prod_cons])
    (fun bv hbv => hoptlen 64 bv hbv)
    rfl
    (by show (List.replicate (10 * 64) (0 : ℚ)).length = [10, 64].prod
        rw [List.length_replicate]
        norm_num [List.prod_cons])
    (fun bv hbv => hoptlen 10 bv hbv)

/-- C10 counterexample: configuring the recognized key patch_size = 8
has no effect; the constructed assembly partitions with patch size 16,
because train.py does not forward patch_size to VisionTransformer and
VisionTransformer does not forward it to InputEmbedding. -/
theorem C10_counterexample :
    (buildModel ⟨some 8, none, none, none, none, none⟩
      (zeroInit 768 10)).input_embedding.patch_size = 16 ∧
    ¬ ((buildModel ⟨some 8, none, none, none, none, none⟩
      (zeroInit 768 10)).input_embedding.patch_size = 8) := by
  exact ⟨rfl, by decide⟩

/-- C10 (amended): for every configuration, the Transformer Assembly
constructed by train.py partitions its input images into patches of side
16 — the InputEmbedding default — regardless of the configured
patch_size, and its embedding forward can only succeed on images whose
spatial extents are multiples of 16. -/
theorem C10_patch_size (cfg : Config) (init : InitParams) :
    (buildModel cfg init).input_embedding.patch_size = 16 ∧
    ∀ (env : TorchEnv) (x : Tensor) (b c h w : ℕ) (y : Tensor),
      x.shape = [b, c, h, w] →
      InputEmbedding.forward env (buildModel cfg init).input_embedding x = some y →
      (16 ∣ h ∧ 16 ∣ w) := by
  refine ⟨rfl, ?_⟩
  intro env x b c h w y hx hy
  by_cases hcond : 0 < 16 ∧ (16 : ℕ) ∣ h ∧ (16 : ℕ) ∣ w
  · exact ⟨hcond.2.1, hcond.2.2⟩
  · exfalso
    have hre := rearrange_none 16 x b c h w hx hcond
    have hps : (buildModel cfg init).input_embedding.patch_size = 16 := rfl
    have hnone : InputEmbedding.forward env (buildModel cfg init).input_embedding x = none := by
      unfold InputEmbedding.forward
      rw [hps]
      simp only [hre]
    rw [hnone] at hy
    exact Option.noConfusion hy

/-- Witness for the amended C10 at a concrete configuration carrying
patch_size = 8 and at an assembly input whose embedding succeeds only
with the actual granularity 16. -/
theorem C10_patch_size_witness :
    (buildModel ⟨some 8, some 64, some 2, some 4, some 10, none⟩
      (zeroInit 64 10)).input_embedding.patch_size = 16 ∧
    ∀ (env : TorchEnv) (x : Tensor) (b c h w : ℕ) (y : Tensor),
      x.shape = [b, c, h, w] →
      InputEmbedding.forward env (buildModel ⟨some 8, some 64, some 2, some 4, some 10, none⟩
        (zeroInit 64 10)).input_embedding x = some y →
      (16 ∣ h ∧ 16 ∣ w) :=
  C10_patch_size ⟨some 8, some 64, some 2, some 4, some 10, none⟩ (zeroInit 64 10)
